import Mathlib

/-!
Verification of the pyterminate termination-handler registry
(`pyterminate/__init__.py`).

The module keeps process-wide tables:
  * `_registered_funcs` — the set of currently registered callbacks;
  * `_func_to_wrapper_exit` — callback → its atexit wrapper closure;
  * `_func_to_wrapper_sig` — callback → its signal wrapper closure;
  * `_signal_to_prev_handler` — callback → {signal → [saved previous handler]};
plus the OS signal-disposition table and the atexit stack.

We embed this state shallowly.  Callbacks are identified by natural numbers.
Wrapper closures are Python objects compared with `is`, so each registration
allocates fresh tokens (`nextToken`) for its exit wrapper and signal wrapper;
the heap tables `exitInfo` / `wrapInfo` record what each wrapper closure
captured.  Python dicts preserve insertion order, so dicts are association
lists with insert-at-end semantics.  Handler execution is an interpreter with
fuel; user callbacks are external and modelled by a behaviour oracle
`beh : Nat → Bool` saying whether the callback raises.
-/

namespace Pyterminate

/-- A value in the OS signal-disposition table: `SIG_DFL`, `SIG_IGN`,
`signal.default_int_handler`, a foreign (non-registry) handler, or one of the
registry's signal wrapper closures, identified by its allocation token. -/
inductive Handler : Type where
  | dfl : Handler
  | ign : Handler
  | defaultInt : Handler
  | foreign : Nat → Handler
  | wrap : Nat → Handler
  deriving DecidableEq

/-- Python's `callable`: `SIG_DFL` and `SIG_IGN` are plain ints, everything
else stored in the disposition table is a callable. -/
def Handler.callable : Handler → Bool
  | Handler.dfl => false
  | Handler.ign => false
  | Handler.defaultInt => true
  | Handler.foreign _ => true
  | Handler.wrap _ => true

/-- Lookup in an insertion-ordered dict (association list). -/
def alookup {α : Type} : List (Nat × α) → Nat → Option α
  | [], _ => none
  | (k2, v) :: rest, k => if k2 = k then some v else alookup rest k

/-- `d[k] = v`: overwrite in place if the key exists, else append at the end
(Python dicts preserve insertion order). -/
def aset {α : Type} : List (Nat × α) → Nat → α → List (Nat × α)
  | [], k, v => [(k, v)]
  | (k2, v2) :: rest, k, v =>
      if k2 = k then (k2, v) :: rest else (k2, v2) :: aset rest k v

/-- `del d[k]`. -/
def adel {α : Type} (l : List (Nat × α)) (k : Nat) : List (Nat × α) :=
  l.filter (fun p => p.1 ≠ k)

/-- `d.setdefault(k, v)`. -/
def asetd {α : Type} (l : List (Nat × α)) (k : Nat) (v : α) : List (Nat × α) :=
  match alookup l k with
  | some _ => l
  | none => l ++ [(k, v)]

/-- The keys of a dict, in insertion order. -/
def akeys {α : Type} (l : List (Nat × α)) : List Nat :=
  l.map (fun p => p.1)

/-- `lst[0] if lst else SIG_DFL`: the handler a saved previous-handler list
denotes when it is restored (lines 127–130). -/
def headOr (l : List Handler) : Handler :=
  match l with
  | [] => Handler.dfl
  | h :: _ => h

/-- What a signal wrapper closure captured at registration time:
the callback it belongs to, `successful_exit`, and
`keyboard_interrupt_on_sigint`. -/
structure WInfo : Type where
  func : Nat
  se : Bool
  kb : Bool
  deriving DecidableEq

/-- The process-wide state of the registry, the OS disposition table and the
atexit stack.  `exitInfo` and `wrapInfo` model the heap: which closure object
each allocated token denotes; they are append-only (objects never change
identity). -/
structure RState : Type where
  registered : List Nat
  funcToWrapperExit : List (Nat × Nat)
  funcToWrapperSig : List (Nat × Nat)
  prevHandler : List (Nat × List (Nat × List Handler))
  sigTable : Nat → Handler
  atexitStack : List Nat
  exitInfo : List (Nat × Nat)
  wrapInfo : List (Nat × WInfo)
  nextToken : Nat

/-- `signal.signal(s, h)` (the disposition write; the read of the previous
handler is done at call sites, as in the source). -/
def setSig (st : RState) (s : Nat) (h : Handler) : RState :=
  { st with sigTable := fun x => if x = s then h else st.sigTable x }

/-- `signal.SIGINT`. -/
def SIGINT : Nat := 2

/-- First loop of `unregister` (lines 123–132): for each signal the callback
was bound to, if the OS-installed handler is still this callback's signal
wrapper, replace it with the saved previous handler, or `SIG_DFL` if none was
saved.  `w?` is `wrapper_sig` (None when the callback had no signal wrapper
entry; `x is not None` then holds for every installed handler, so nothing is
replaced). -/
def phase1Step (w? : Option Nat) (acc : RState) (p : Nat × List Handler) : RState :=
  match w? with
  | none => acc
  | some w =>
    if acc.sigTable p.1 = Handler.wrap w then
      match p.2 with
      | [] => setSig acc p.1 Handler.dfl
      | h :: _ => setSig acc p.1 h
    else acc

def phase1 (w? : Option Nat) (m : List (Nat × List Handler)) (st : RState) : RState :=
  m.foldl (phase1Step w?) st

/-- One iteration of the re-link loop of `unregister` (lines 134–148), for the
pair `(fn, sig)`: if `sig` is one of `func`'s bound signals and `fn`'s saved
previous handler list for `sig` starts with `func`'s signal wrapper, rewrite it
to `func`'s own saved previous handler list.  All reads are from the current
state, as in the source. -/
def relinkStep (f : Nat) (w? : Option Nat) (st : RState) (p : Nat × Nat) : RState :=
  let mf := (alookup st.prevHandler f).getD []
  let dfn := (alookup st.prevHandler p.1).getD []
  let lfn := (alookup dfn p.2).getD []
  let hit :=
    (alookup mf p.2).isSome &&
      (match lfn, w? with
       | Handler.wrap w2 :: _, some w => w2 == w
       | _, _ => false)
  if hit then
    { st with prevHandler := aset st.prevHandler p.1 (aset dfn p.2 ((alookup mf p.2).getD [])) }
  else st

/-- Lines 104–107 of `unregister`: drop the atexit registration of the
callback's exit wrapper and its `_func_to_wrapper_exit` entry. -/
def dropExitEntry (st : RState) (f : Nat) : RState :=
  match alookup st.funcToWrapperExit f with
  | some e =>
      { st with
          atexitStack := st.atexitStack.filter (fun t => t ≠ e),
          funcToWrapperExit := adel st.funcToWrapperExit f }
  | none => st

/-- Lines 109–113 of `unregister`: look up `wrapper_sig` (None if absent) and
drop the `_func_to_wrapper_sig` entry. -/
def dropSigEntry (st : RState) (f : Nat) : RState × Option Nat :=
  match alookup st.funcToWrapperSig f with
  | some w => ({ st with funcToWrapperSig := adel st.funcToWrapperSig f }, some w)
  | none => (st, none)

/-- Lines 119–150 of `unregister`: if the callback has a
`_signal_to_prev_handler` entry, restore dispositions still pointing at its
wrapper (`phase1`), splice its entry out of every other callback's saved
previous-handler link (`relinkStep` over all (fn, sig) pairs in table order),
and delete its entry. -/
def relinkChain (st : RState) (f : Nat) (w? : Option Nat) : RState :=
  match alookup st.prevHandler f with
  | some m =>
    let sta := phase1 w? m st
    let pairs := sta.prevHandler.flatMap
      (fun q => q.2.map (fun r : Nat × List Handler => (q.1, r.1)))
    let stb := pairs.foldl (relinkStep f w?) sta
    { stb with prevHandler := adel stb.prevHandler f }
  | none => st

/-- `unregister(func)` (lines 93–152). -/
def unregisterFn (st : RState) (f : Nat) : RState :=
  let st1 := dropExitEntry st f
  let r := dropSigEntry st1 f
  let st3 := relinkChain r.1 f r.2
  { st3 with registered := st3.registered.filter (fun g => g ≠ f) }

/-- Events observable during termination processing: a user callback being
invoked, or a foreign handler being invoked for a signal. -/
inductive Event : Type where
  | callFunc : Nat → Event
  | callForeign : Nat → Nat → Event
  deriving DecidableEq

/-- How a piece of Python code finishes: returns normally, propagates an
exception, calls `sys.exit(code)` (`SystemExit`), raises
`KeyboardInterrupt`, or the interpreter ran out of fuel. -/
inductive PyRes : Type where
  | ok : PyRes
  | exn : PyRes
  | exited : Nat → PyRes
  | kbInt : PyRes
  | fuelOut : PyRes
  deriving DecidableEq

/-- The `exit_handler` closure of `func`'s registration (lines 196–210):
return unless `func` is still registered; set every bound signal to `SIG_IGN`
remembering the old dispositions; remove `func` from the registered set; call
the user callback (`beh f = true` means it raises, in which case the
exception propagates and neither the dispositions nor the tables are
restored — there is no `try/finally` in the source); otherwise restore the
dispositions and call `unregister(func)`.  A missing `_signal_to_prev_handler`
entry for a registered `func` would be a `KeyError` (`PyRes.exn`). -/
def runExit (beh : Nat → Bool) (st : RState) (f : Nat) : RState × List Event × PyRes :=
  if f ∈ st.registered then
    match alookup st.prevHandler f with
    | none => (st, [], PyRes.exn)
    | some m =>
      let r1 := m.foldl
        (fun (acc : RState × List (Nat × Handler)) p =>
          (setSig acc.1 p.1 Handler.ign, acc.2 ++ [(p.1, acc.1.sigTable p.1)]))
        (st, [])
      let st2 := { r1.1 with registered := r1.1.registered.filter (fun g => g ≠ f) }
      if beh f then (st2, [Event.callFunc f], PyRes.exn)
      else
        let st3 := r1.2.foldl (fun acc q => setSig acc q.1 q.2) st2
        (unregisterFn st3 f, [Event.callFunc f], PyRes.ok)
  else (st, [], PyRes.ok)

/-- The `signal_handler` closure denoted by wrapper token `w`, invoked for
signal `s` (lines 212–222): run the exit handler; then query the handler
currently installed for `s` and, if callable, invoke it (calling
`default_int_handler` raises `KeyboardInterrupt`; a nested registry wrapper
runs recursively and, since it never returns normally, its `SystemExit` /
`KeyboardInterrupt` / exception propagates); then, if
`keyboard_interrupt_on_sigint` and `s` is `SIGINT`, raise
`KeyboardInterrupt`; otherwise `sys.exit(0 if successful_exit else s)`.
Foreign handlers are assumed to return normally. -/
def runSig (beh : Nat → Bool) : Nat → RState → Nat → Nat → RState × List Event × PyRes
  | 0, st, _, _ => (st, [], PyRes.fuelOut)
  | fuel + 1, st, w, s =>
    match alookup st.wrapInfo w with
    | none => (st, [], PyRes.exn)
    | some i =>
      let r1 := runExit beh st i.func
      match r1.2.2 with
      | PyRes.ok =>
        let st1 := r1.1
        let tr1 := r1.2.1
        match st1.sigTable s with
        | Handler.dfl =>
            if i.kb && (s == SIGINT) then (st1, tr1, PyRes.kbInt)
            else (st1, tr1, PyRes.exited (if i.se then 0 else s))
        | Handler.ign =>
            if i.kb && (s == SIGINT) then (st1, tr1, PyRes.kbInt)
            else (st1, tr1, PyRes.exited (if i.se then 0 else s))
        | Handler.defaultInt => (st1, tr1, PyRes.kbInt)
        | Handler.foreign n =>
            if i.kb && (s == SIGINT) then (st1, tr1 ++ [Event.callForeign n s], PyRes.kbInt)
            else (st1, tr1 ++ [Event.callForeign n s], PyRes.exited (if i.se then 0 else s))
        | Handler.wrap w2 =>
          let r2 := runSig beh fuel st1 w2 s
          match r2.2.2 with
          | PyRes.ok =>
              if i.kb && (s == SIGINT) then (r2.1, tr1 ++ r2.2.1, PyRes.kbInt)
              else (r2.1, tr1 ++ r2.2.1, PyRes.exited (if i.se then 0 else s))
          | res => (r2.1, tr1 ++ r2.2.1, res)
      | res => (r1.1, r1.2.1, res)

/-- One iteration of the registration loop (lines 226–237), for signal `s`:
install the signal wrapper `w`, initialize the saved-previous-handler slot,
and record the previously installed handler unless it is not callable or is
`signal.default_int_handler`. -/
def regSigStep (f w : Nat) (acc : RState) (s : Nat) : RState :=
  let prev := acc.sigTable s
  let acc1 := setSig acc s (Handler.wrap w)
  let d := (alookup acc1.prevHandler f).getD []
  let d1 := asetd d s []
  let acc2 := { acc1 with prevHandler := aset acc1.prevHandler f d1 }
  if prev.callable = false then acc2
  else if prev = Handler.defaultInt then acc2
  else
    { acc2 with
        prevHandler :=
          aset acc2.prevHandler f (aset d1 s (((alookup d1 s).getD []) ++ [prev])) }

/-- `_register_impl` (lines 155–245).  Returns the new state, whether the
duplicate-registration warning was emitted, and the returned callback.
Fresh tokens `nextToken` / `nextToken + 1` are allocated for the exit and
signal wrapper closures.  For each requested signal, install the signal
wrapper, and save the previously installed handler unless it is not callable
or is `signal.default_int_handler`. -/
def registerImpl (st : RState) (f : Nat) (sigs : List Nat) (se kb : Bool) :
    RState × Bool × Nat :=
  if f ∈ st.registered then (st, true, f)
  else
    let e := st.nextToken
    let w := st.nextToken + 1
    let st0 := { st with prevHandler := asetd st.prevHandler f [] }
    let st1 := sigs.foldl (regSigStep f w) st0
    ({ st1 with
        registered := f :: st1.registered,
        funcToWrapperExit := aset st1.funcToWrapperExit f e,
        funcToWrapperSig := aset st1.funcToWrapperSig f w,
        exitInfo := aset st1.exitInfo e f,
        wrapInfo := aset st1.wrapInfo w ⟨f, se, kb⟩,
        atexitStack := e :: st1.atexitStack,
        nextToken := st.nextToken + 2 },
     false, f)

/-- The keyword settings captured by a `register(...)` call. -/
structure RegArgs : Type where
  sigs : List Nat
  se : Bool
  kb : Bool
  deriving DecidableEq

/-- The decorator produced by `register` applied to a function: calls
`_register_impl` with the captured settings and returns the function. -/
def applyDec (st : RState) (a : RegArgs) (f : Nat) : RState × Nat :=
  let r := registerImpl st f a.sigs a.se a.kb
  (r.1, r.2.2)

/-- `register` (lines 50–90): with a callback, registers it directly
(`decorator(func)`); without one, returns the decorator carrying the captured
settings. -/
def registerPy (st : RState) (func : Option Nat) (a : RegArgs) :
    (RState × Nat) ⊕ RegArgs :=
  match func with
  | some f => Sum.inl (applyDec st a f)
  | none => Sum.inr a

/-- OS-level delivery of signal `s`: run whatever disposition is installed.
`SIG_DFL` terminates the process by the signal's default action, `SIG_IGN`
ignores it, `default_int_handler` raises `KeyboardInterrupt`, a foreign
handler runs and returns, a registry wrapper runs `signal_handler`. -/
def deliverSig (beh : Nat → Bool) (fuel : Nat) (st : RState) (s : Nat) :
    RState × List Event × PyRes :=
  match st.sigTable s with
  | Handler.dfl => (st, [], PyRes.exited (128 + s))
  | Handler.ign => (st, [], PyRes.ok)
  | Handler.defaultInt => (st, [], PyRes.kbInt)
  | Handler.foreign n => (st, [Event.callForeign n s], PyRes.ok)
  | Handler.wrap w => runSig beh fuel st w s

/-- Normal-exit processing: atexit pops the most recently registered wrapper,
runs it (exceptions from atexit callbacks are caught and reported, processing
continues), and repeats. -/
def runAtexit (beh : Nat → Bool) : Nat → RState → RState × List Event
  | 0, st => (st, [])
  | fuel + 1, st =>
    match st.atexitStack with
    | [] => (st, [])
    | e :: rest =>
      let st0 := { st with atexitStack := rest }
      match alookup st0.exitInfo e with
      | none => runAtexit beh fuel st0
      | some f =>
        let r := runExit beh st0 f
        let r2 := runAtexit beh fuel r.1
        (r2.1, r.2.1 ++ r2.2)

/-- The termination-time events the process can experience after
registration: delivery of a signal, or the start of normal-exit processing. -/
inductive TopEvent : Type where
  | deliver : Nat → TopEvent
  | normalExit : TopEvent
  deriving DecidableEq

/-- Run one top-level event; the Bool says whether the process may still be
alive afterwards (an exception or `KeyboardInterrupt` escaping a signal
handler can be caught by the application, so only `sys.exit` certainly ends
the process). -/
def runTop (beh : Nat → Bool) (fuel : Nat) (st : RState) :
    TopEvent → RState × List Event × Bool
  | TopEvent.deliver s =>
    let r := deliverSig beh fuel st s
    (r.1, r.2.1,
      match r.2.2 with
      | PyRes.exited _ => false
      | PyRes.fuelOut => false
      | _ => true)
  | TopEvent.normalExit =>
    let r := runAtexit beh fuel st
    (r.1, r.2, false)

/-- Run a sequence of top-level events; once the process terminates,
remaining events are ignored. -/
def runEvents (beh : Nat → Bool) (fuel : Nat) : RState → List TopEvent → RState × List Event
  | st, [] => (st, [])
  | st, ev :: rest =>
    let r := runTop beh fuel st ev
    if r.2.2 then
      let r2 := runEvents beh fuel r.1 rest
      (r2.1, r.2.1 ++ r2.2)
    else (r.1, r.2.1)

/-- The state of a freshly started process with OS dispositions `S0`:
all registry tables empty. -/
def cleanState (S0 : Nat → Handler) : RState :=
  { registered := [],
    funcToWrapperExit := [],
    funcToWrapperSig := [],
    prevHandler := [],
    sigTable := S0,
    atexitStack := [],
    exitInfo := [],
    wrapInfo := [],
    nextToken := 0 }

/-- Register a list of callbacks in order, all for the single signal `s`;
each list entry is (callback, successful_exit, keyboard_interrupt_on_sigint). -/
def regList (s : Nat) : RState → List (Nat × Bool × Bool) → RState
  | st, [] => st
  | st, q :: rest => regList s (registerImpl st q.1 [s] q.2.1 q.2.2).1 rest

/-! ## At-most-once firing (claim C1) -/

/-- Number of times callback `f` is invoked in an event trace. -/
def callCount (f : Nat) : List Event → Nat
  | [] => 0
  | Event.callFunc g :: rest => (if g = f then 1 else 0) + callCount f rest
  | Event.callForeign _ _ :: rest => callCount f rest

/-- 1 if `f` is currently in the registered set, else 0. -/
def actMeasure (st : RState) (f : Nat) : Nat :=
  if f ∈ st.registered then 1 else 0

/-- Membership count on a plain list (the registered set). -/
def actM (l : List Nat) (f : Nat) : Nat := if f ∈ l then 1 else 0

/-- The saved previous-handler list recorded at registration for a signal
whose prior disposition was `h` (lines 231–237): empty unless `h` is callable
and is not `signal.default_int_handler`. -/
def savedOf (h : Handler) : List Handler :=
  if h.callable = false then []
  else if h = Handler.defaultInt then []
  else [h]

/-- Concrete state for witnesses: callback 0 registered for signal 15 on a
process whose prior disposition for every signal was a foreign handler. -/
def exampleForeignReg : RState :=
  (registerImpl (cleanState (fun _ => Handler.foreign 7)) 0 [15] false false).1

/-! ## Claim C5 -/

/-- One registered callback in a single-signal chain: callback id, signal
wrapper token, and the captured exit-status flags. -/
structure Cell : Type where
  f : Nat
  w : Nat
  se : Bool
  kb : Bool
  deriving DecidableEq

/-- The saved previous-handler list that the next registration on this chain
would record: the last cell's wrapper, or the saved form of the initial
disposition when the chain is empty. -/
def linkEF (cs : List Cell) (t : List Handler) : List Handler :=
  match cs.getLast? with
  | some c => [Handler.wrap c.w]
  | none => t

/-- The exact `_signal_to_prev_handler` table of a single-signal chain:
cells in registration order (earliest first); the first cell's saved list is
`link`, each later cell's saved list is its predecessor's wrapper. -/
def tblEF (s : Nat) : List Cell → List Handler → List (Nat × List (Nat × List Handler))
  | [], _ => []
  | c :: rest, link => (c.f, [(s, link)]) :: tblEF s rest [Handler.wrap c.w]

/-- The disposition the chain's signal has: the last cell's wrapper, or the
restored tail handler for an empty chain. -/
def topOfExact (cs : List Cell) (t : List Handler) : Handler :=
  match cs.getLast? with
  | some c => Handler.wrap c.w
  | none => headOr t

/-- The bookkeeping invariant of a single-signal chain, cells listed in
registration order (earliest first): the saved-previous-handler table and the
wrapper table are exactly the chain's; each wrapper token is live in the heap
with its captured flags; callbacks and tokens are distinct; the initial tail
is empty or one foreign handler; and the disposition of `s` is the last
cell's wrapper (or, for an empty chain, a non-wrapper handler whose saved
form is the tail). -/
structure ChainCore (st : RState) (s : Nat) (cs : List Cell) (t : List Handler) : Prop where
  ptab : st.prevHandler = tblEF s cs t
  stab : st.funcToWrapperSig = cs.map (fun c => (c.f, c.w))
  winfo : ∀ c ∈ cs, alookup st.wrapInfo c.w = some ⟨c.f, c.se, c.kb⟩
  wbound : ∀ c ∈ cs, c.w < st.nextToken
  wkeys : ∀ k ∈ akeys st.wrapInfo, k < st.nextToken
  fnodup : (cs.map (fun c => c.f)).Nodup
  wnodup : (cs.map (fun c => c.w)).Nodup
  tailok : t = [] ∨ ∃ n, t = [Handler.foreign n]
  top : (match cs.getLast? with
         | some c => st.sigTable s = Handler.wrap c.w
         | none => savedOf (st.sigTable s) = t ∧ ∀ w2, st.sigTable s ≠ Handler.wrap w2)

/-- Observable tail of a chained delivery: the foreign handler that was
installed before the chain, if any, is invoked. -/
def tailTrace (t : List Handler) (s : Nat) : List Event :=
  match t with
  | [Handler.foreign n] => [Event.callForeign n s]
  | _ => []

/-- The termination result of a chained delivery: decided by the
earliest-registered cell of the chain, whose `sys.exit` (or
`KeyboardInterrupt`) is the innermost and therefore the one that escapes. -/
def firstRes (cs : List Cell) (s : Nat) : PyRes :=
  match cs with
  | [] => PyRes.ok
  | c :: _ =>
    if c.kb && (s == SIGINT) then PyRes.kbInt
    else PyRes.exited (if c.se then 0 else s)

/-- The observable structure of a signal's handler chain, read off the
registry tables: follow the installed disposition through the saved
previous-handler links, collecting each registry callback's identity and
flags, until a non-registry handler is reached. -/
def obsChain (st : RState) (s : Nat) : Nat → Handler → List (Nat × Bool × Bool) × Handler
  | 0, h => ([], h)
  | fuel + 1, h =>
    match h with
    | Handler.wrap w =>
      match alookup st.wrapInfo w with
      | some i =>
        let nxt :=
          match alookup ((alookup st.prevHandler i.func).getD []) s with
          | some (h2 :: _) => h2
          | _ => Handler.dfl
        let r := obsChain st s fuel nxt
        ((i.func, i.se, i.kb) :: r.1, r.2)
      | none => ([], Handler.wrap w)
    | h2 => ([], h2)

theorem callCount_append (f : Nat) (l1 l2 : List Event) :
    callCount f (l1 ++ l2) = callCount f l1 + callCount f l2 := by
  induction l1 with
  | nil => simp [callCount]
  | cons e rest ih =>
    cases e with
    | callFunc g => simp [callCount, ih]; omega
    | callForeign n s => simp [callCount, ih]

theorem actMeasure_le_one (st : RState) (f : Nat) : actMeasure st f ≤ 1 := by
  unfold actMeasure; split <;> omega

theorem foldl_inv {α σ : Type} (P : σ → Prop) (g : σ → α → σ)
    (h : ∀ s a, P s → P (g s a)) :
    ∀ (l : List α) (s : σ), P s → P (l.foldl g s) := by
  intro l
  induction l with
  | nil => intro s hs; exact hs
  | cons a rest ih => intro s hs; exact ih _ (h s a hs)

theorem setSig_registered (st : RState) (s : Nat) (h : Handler) :
    (setSig st s h).registered = st.registered := rfl

theorem phase1Step_registered (w? : Option Nat) (acc : RState) (p : Nat × List Handler) :
    (phase1Step w? acc p).registered = acc.registered := by
  unfold phase1Step
  cases w? with
  | none => rfl
  | some w =>
    by_cases hc : acc.sigTable p.1 = Handler.wrap w
    · simp only [hc, if_pos rfl]
      cases h2 : p.2 <;> rfl
    · simp [hc]

theorem phase1_registered (w? : Option Nat) (m : List (Nat × List Handler)) (st : RState) :
    (phase1 w? m st).registered = st.registered := by
  unfold phase1
  exact foldl_inv (fun x => x.registered = st.registered) (phase1Step w?)
    (fun s a hs => (phase1Step_registered w? s a).trans hs) m st rfl

theorem relinkStep_registered (f : Nat) (w? : Option Nat) (st : RState) (p : Nat × Nat) :
    (relinkStep f w? st p).registered = st.registered := by
  simp only [relinkStep]
  split <;> rfl

theorem dropExitEntry_registered (st : RState) (f : Nat) :
    (dropExitEntry st f).registered = st.registered := by
  unfold dropExitEntry; split <;> rfl

theorem dropSigEntry_registered (st : RState) (f : Nat) :
    (dropSigEntry st f).1.registered = st.registered := by
  unfold dropSigEntry; split <;> rfl

theorem relinkChain_registered (st : RState) (f : Nat) (w? : Option Nat) :
    (relinkChain st f w?).registered = st.registered := by
  unfold relinkChain
  split
  case h_1 m hm =>
    exact foldl_inv (fun x : RState => x.registered = st.registered)
      (relinkStep f w?)
      (fun s a hs => (relinkStep_registered f w? s a).trans hs)
      _ (phase1 w? m st) (phase1_registered w? m st)
  case h_2 => rfl

theorem unregisterFn_registered (st : RState) (f : Nat) :
    (unregisterFn st f).registered = st.registered.filter (fun g => g ≠ f) := by
  simp only [unregisterFn]
  rw [relinkChain_registered, dropSigEntry_registered, dropExitEntry_registered]

theorem actMeasure_eq_actM (st : RState) (f : Nat) :
    actMeasure st f = actM st.registered f := rfl

theorem actM_le_one (l : List Nat) (f : Nat) : actM l f ≤ 1 := by
  unfold actM; split <;> omega

theorem actM_filter_ne_self (l : List Nat) (f : Nat) :
    actM (l.filter (fun x => x ≠ f)) f = 0 := by
  unfold actM
  split
  case isTrue h => simp at h
  case isFalse h => rfl

theorem actM_filter_le (l : List Nat) (p : Nat → Bool) (f : Nat) :
    actM (l.filter p) f ≤ actM l f := by
  unfold actM
  by_cases h : f ∈ l.filter p
  · rw [if_pos h, if_pos (List.mem_of_mem_filter h)]
  · rw [if_neg h]; split <;> omega

theorem actM_of_mem {l : List Nat} {f : Nat} (h : f ∈ l) : actM l f = 1 := by
  unfold actM; rw [if_pos h]

theorem ignoreFold_registered (m : List (Nat × List Handler)) (st : RState) :
    ((m.foldl
        (fun (acc : RState × List (Nat × Handler)) p =>
          (setSig acc.1 p.1 Handler.ign, acc.2 ++ [(p.1, acc.1.sigTable p.1)]))
        (st, [])).1).registered = st.registered :=
  foldl_inv (fun x : RState × List (Nat × Handler) => x.1.registered = st.registered)
    (fun acc p => (setSig acc.1 p.1 Handler.ign, acc.2 ++ [(p.1, acc.1.sigTable p.1)]))
    (fun _ _ hs => hs) m (st, []) rfl

theorem restoreFold_registered (l : List (Nat × Handler)) (st : RState) :
    (l.foldl (fun acc q => setSig acc q.1 q.2) st).registered = st.registered :=
  foldl_inv (fun x : RState => x.registered = st.registered)
    (fun acc q => setSig acc q.1 q.2) (fun _ _ hs => hs) l st rfl

theorem runExit_count (beh : Nat → Bool) (st : RState) (g f : Nat) :
    callCount f (runExit beh st g).2.1 + actMeasure (runExit beh st g).1 f
      ≤ actMeasure st f := by
  simp only [actMeasure_eq_actM]
  unfold runExit
  by_cases hg : g ∈ st.registered
  · rw [if_pos hg]
    cases hm : alookup st.prevHandler g with
    | none => simp [callCount]
    | some m =>
      simp only
      by_cases hb : beh g
      · simp only [if_pos hb, callCount]
        rw [ignoreFold_registered]
        by_cases hgf : g = f
        · subst hgf
          rw [actM_of_mem hg]
          have h0 := actM_filter_ne_self st.registered g
          simp only [h0]
          simp
        · simp only [if_neg hgf]
          have := actM_filter_le st.registered (fun x => decide (x ≠ g)) f
          omega
      · simp only [if_neg hb, callCount]
        rw [unregisterFn_registered, restoreFold_registered, ignoreFold_registered]
        by_cases hgf : g = f
        · subst hgf
          rw [actM_of_mem hg]
          have h0 := actM_filter_ne_self (st.registered.filter (fun x => x ≠ g)) g
          simp only [h0]
          simp
        · simp only [if_neg hgf]
          have h1 := actM_filter_le (st.registered.filter (fun x => decide (x ≠ g)))
            (fun x => decide (x ≠ g)) f
          have h2 := actM_filter_le st.registered (fun x => decide (x ≠ g)) f
          omega
  · rw [if_neg hg]
    simp [callCount]

theorem callCount_snocForeign (f n s : Nat) (l : List Event) :
    callCount f (l ++ [Event.callForeign n s]) = callCount f l := by
  rw [callCount_append]; simp [callCount]

theorem runSig_count (beh : Nat → Bool) (fuel : Nat) (st : RState) (w s : Nat) (f : Nat) :
    callCount f (runSig beh fuel st w s).2.1 + actMeasure (runSig beh fuel st w s).1 f
      ≤ actMeasure st f := by
  induction fuel generalizing st w with
  | zero => simp [runSig, callCount]
  | succ fuel ih =>
    unfold runSig
    cases hw : alookup st.wrapInfo w with
    | none => simp [callCount]
    | some i =>
      simp only
      have h1 := runExit_count beh st i.func f
      generalize hE : runExit beh st i.func = R at h1 ⊢
      obtain ⟨st1, tr1, res1⟩ := R
      simp only at h1 ⊢
      cases res1 with
      | ok =>
        cases hsig : st1.sigTable s with
        | dfl => dsimp only; split <;> simpa using h1
        | ign => dsimp only; split <;> simpa using h1
        | defaultInt => dsimp only; simpa using h1
        | foreign n => dsimp only; split <;> simpa [callCount_snocForeign] using h1
        | wrap w2 =>
          dsimp only
          have h2 := ih st1 w2
          generalize hR : runSig beh fuel st1 w2 s = R2 at h2 ⊢
          obtain ⟨st2, tr2, res2⟩ := R2
          dsimp only at h2 ⊢
          cases res2 <;>
            first
              | (dsimp only; split <;> (simp only [callCount_append]; omega))
              | (dsimp only; simp only [callCount_append]; omega)
      | exn => simpa using h1
      | exited c => simpa using h1
      | kbInt => simpa using h1
      | fuelOut => simpa using h1

theorem deliverSig_count (beh : Nat → Bool) (fuel : Nat) (st : RState) (s f : Nat) :
    callCount f (deliverSig beh fuel st s).2.1 + actMeasure (deliverSig beh fuel st s).1 f
      ≤ actMeasure st f := by
  unfold deliverSig
  cases hsig : st.sigTable s with
  | dfl => simp [callCount]
  | ign => simp [callCount]
  | defaultInt => simp [callCount]
  | foreign n => simp [callCount]
  | wrap w => exact runSig_count beh fuel st w s f

theorem runAtexit_count (beh : Nat → Bool) (fuel : Nat) :
    ∀ (st : RState) (f : Nat),
      callCount f (runAtexit beh fuel st).2 + actMeasure (runAtexit beh fuel st).1 f
        ≤ actMeasure st f := by
  induction fuel with
  | zero => intro st f; simp [runAtexit, callCount]
  | succ fuel ih =>
    intro st f
    unfold runAtexit
    cases hstk : st.atexitStack with
    | nil => simp [callCount]
    | cons e rest =>
      simp only
      cases he : alookup ({ st with atexitStack := rest } : RState).exitInfo e with
      | none =>
        have := ih { st with atexitStack := rest } f
        simpa using this
      | some g =>
        simp only
        have h1 := runExit_count beh { st with atexitStack := rest } g f
        generalize hE : runExit beh { st with atexitStack := rest } g = R at h1 ⊢
        obtain ⟨st1, tr1, res1⟩ := R
        simp only at h1 ⊢
        have h2 := ih st1 f
        generalize hA : runAtexit beh fuel st1 = R2 at h2 ⊢
        obtain ⟨st2, tr2⟩ := R2
        simp only at h2 ⊢
        rw [callCount_append]
        have h3 : actMeasure { st with atexitStack := rest } f = actMeasure st f := rfl
        omega

theorem runTop_count (beh : Nat → Bool) (fuel : Nat) (st : RState) (ev : TopEvent) (f : Nat) :
    callCount f (runTop beh fuel st ev).2.1 + actMeasure (runTop beh fuel st ev).1 f
      ≤ actMeasure st f := by
  cases ev with
  | deliver s =>
    have := deliverSig_count beh fuel st s f
    simpa [runTop] using this
  | normalExit =>
    have := runAtexit_count beh fuel st f
    simpa [runTop] using this

theorem runEvents_count (beh : Nat → Bool) (fuel : Nat) :
    ∀ (evs : List TopEvent) (st : RState) (f : Nat),
      callCount f (runEvents beh fuel st evs).2 + actMeasure (runEvents beh fuel st evs).1 f
        ≤ actMeasure st f := by
  intro evs
  induction evs with
  | nil => intro st f; simp [runEvents, callCount]
  | cons ev rest ih =>
    intro st f
    unfold runEvents
    have h1 := runTop_count beh fuel st ev f
    generalize hT : runTop beh fuel st ev = R at h1 ⊢
    obtain ⟨st1, tr1, alive⟩ := R
    simp only at h1 ⊢
    cases alive with
    | true =>
      have h2 := ih st1 f
      generalize hR : runEvents beh fuel st1 rest = R2 at h2 ⊢
      obtain ⟨st2, tr2⟩ := R2
      simp only at h2 ⊢
      simp only [if_pos trivial, callCount_append]
      omega
    | false => simpa using h1

/-! ## Association-list lemmas -/

theorem alookup_aset_self {α : Type} (l : List (Nat × α)) (k : Nat) (v : α) :
    alookup (aset l k v) k = some v := by
  induction l with
  | nil => simp [aset, alookup]
  | cons p rest ih =>
    by_cases h : p.1 = k
    · simp [aset, alookup, h]
    · obtain ⟨k2, v2⟩ := p
      simp only at h
      simp [aset, alookup, h, ih]

theorem alookup_aset_ne {α : Type} (l : List (Nat × α)) (k k2 : Nat) (v : α)
    (h : k ≠ k2) : alookup (aset l k v) k2 = alookup l k2 := by
  induction l with
  | nil => simp [aset, alookup, h]
  | cons p rest ih =>
    obtain ⟨k3, v3⟩ := p
    by_cases h3 : k3 = k
    · subst h3
      simp [aset, alookup, h]
    · simp [aset, alookup, h3, ih]

theorem alookup_append_of_none {α : Type} (l l2 : List (Nat × α)) (k : Nat)
    (h : alookup l k = none) : alookup (l ++ l2) k = alookup l2 k := by
  induction l with
  | nil => simp
  | cons p rest ih =>
    obtain ⟨k3, v3⟩ := p
    by_cases h3 : k3 = k
    · simp [alookup, h3] at h
    · simp only [alookup, h3, if_neg h3] at h
      simp [alookup, h3, ih h]

theorem alookup_append_of_some {α : Type} (l l2 : List (Nat × α)) (k : Nat) (v : α)
    (h : alookup l k = some v) : alookup (l ++ l2) k = some v := by
  induction l with
  | nil => simp [alookup] at h
  | cons p rest ih =>
    obtain ⟨k3, v3⟩ := p
    by_cases h3 : k3 = k
    · simp [alookup, h3] at h ⊢; exact h
    · simp only [alookup, if_neg h3] at h
      simp [alookup, h3, ih h]

theorem asetd_of_none {α : Type} (l : List (Nat × α)) (k : Nat) (v : α)
    (h : alookup l k = none) : asetd l k v = l ++ [(k, v)] := by
  unfold asetd; rw [h]

theorem asetd_of_some {α : Type} (l : List (Nat × α)) (k : Nat) (v v2 : α)
    (h : alookup l k = some v2) : asetd l k v = l := by
  unfold asetd; rw [h]

theorem aset_append_of_none {α : Type} (l : List (Nat × α)) (k : Nat) (v v0 : α)
    (h : alookup l k = none) : aset (l ++ [(k, v0)]) k v = l ++ [(k, v)] := by
  induction l with
  | nil => simp [aset]
  | cons p rest ih =>
    obtain ⟨k3, v3⟩ := p
    by_cases h3 : k3 = k
    · simp [alookup, h3] at h
    · simp only [alookup, if_neg h3] at h
      simp [aset, h3, ih h]

theorem adel_of_none {α : Type} (l : List (Nat × α)) (k : Nat)
    (h : alookup l k = none) : adel l k = l := by
  induction l with
  | nil => rfl
  | cons p rest ih =>
    obtain ⟨k3, v3⟩ := p
    by_cases h3 : k3 = k
    · simp [alookup, h3] at h
    · simp only [alookup, if_neg h3] at h
      unfold adel
      rw [List.filter_cons]
      have hd : decide ((k3, v3).1 ≠ k) = true := by simp [h3]
      rw [if_pos hd]
      have h2 := ih h
      unfold adel at h2
      rw [h2]

/-! ## Claim C1 -/

/-- C1: each registered callback fires at most once per process lifetime:
across any sequence of termination events (normal-exit processing and signal
deliveries in any order and multiplicity, including chained and repeated
deliveries of the same signal), starting from any registry state, a callback
`f` is invoked at most once — the exit wrapper returns without calling the
callback unless it is still in the active set and removes it from the active
set before invoking it. -/
theorem C1_at_most_once_per_registration (beh : Nat → Bool) (fuel : Nat)
    (st : RState) (evs : List TopEvent) (f : Nat) :
    callCount f (runEvents beh fuel st evs).2 ≤ 1 := by
  have h := runEvents_count beh fuel evs st f
  have h2 := actM_le_one st.registered f
  simp only [actMeasure_eq_actM] at h
  omega

/-! ## Claim C7 -/

/-- C7: registering an already-active callback is a pure no-op: the state is
returned unchanged (no table, wrapper, saved previous handler, OS signal
disposition, or exit-hook entry is touched), the duplicate-registration
warning is emitted, and the callback itself is returned. -/
theorem C7_duplicate_register_no_op (st : RState) (f : Nat) (sigs : List Nat)
    (se kb : Bool) (h : f ∈ st.registered) :
    registerImpl st f sigs se kb = (st, true, f) := by
  unfold registerImpl
  rw [if_pos h]

/-- Witness for C7 at a concrete input: after registering callback 0, a second
registration is a no-op that warns and returns the callback. -/
theorem C7_witness :
    0 ∈ ((registerImpl (cleanState (fun _ => Handler.dfl)) 0 [15] false false).1).registered
      ∧ registerImpl ((registerImpl (cleanState (fun _ => Handler.dfl)) 0 [15] false false).1)
          0 [15] false false
        = (((registerImpl (cleanState (fun _ => Handler.dfl)) 0 [15] false false).1), true, 0) :=
  ⟨by decide, C7_duplicate_register_no_op _ 0 [15] false false (by decide)⟩

/-! ## Claim C10 -/

/-- C10: `register` with no callback registers nothing and returns the
decorator carrying the captured settings; applying that decorator to a
function performs the registration with those settings — exactly what a
direct `register(f, ...)` call does — and returns the function unchanged. -/
theorem C10_decorator_equivalence (st : RState) (a : RegArgs) (f : Nat) :
    registerPy st none a = Sum.inr a
      ∧ registerPy st (some f) a = Sum.inl (applyDec st a f)
      ∧ (applyDec st a f).2 = f := by
  refine ⟨rfl, rfl, ?_⟩
  unfold applyDec registerImpl
  split
  · rfl
  · rfl

/-! ## Field-preservation lemmas for the unregister pipeline -/

theorem dropExitEntry_sigTable (st : RState) (f : Nat) :
    (dropExitEntry st f).sigTable = st.sigTable := by
  unfold dropExitEntry; split <;> rfl

theorem dropExitEntry_funcToWrapperSig (st : RState) (f : Nat) :
    (dropExitEntry st f).funcToWrapperSig = st.funcToWrapperSig := by
  unfold dropExitEntry; split <;> rfl

theorem dropExitEntry_prevHandler (st : RState) (f : Nat) :
    (dropExitEntry st f).prevHandler = st.prevHandler := by
  unfold dropExitEntry; split <;> rfl

theorem dropExitEntry_wrapInfo (st : RState) (f : Nat) :
    (dropExitEntry st f).wrapInfo = st.wrapInfo := by
  unfold dropExitEntry; split <;> rfl

theorem dropExitEntry_nextToken (st : RState) (f : Nat) :
    (dropExitEntry st f).nextToken = st.nextToken := by
  unfold dropExitEntry; split <;> rfl

theorem dropSigEntry_snd (st : RState) (f : Nat) :
    (dropSigEntry st f).2 = alookup st.funcToWrapperSig f := by
  unfold dropSigEntry
  cases h : alookup st.funcToWrapperSig f <;> simp [h]

theorem dropSigEntry_sigTable (st : RState) (f : Nat) :
    (dropSigEntry st f).1.sigTable = st.sigTable := by
  unfold dropSigEntry; split <;> rfl

theorem dropSigEntry_prevHandler (st : RState) (f : Nat) :
    (dropSigEntry st f).1.prevHandler = st.prevHandler := by
  unfold dropSigEntry; split <;> rfl

theorem dropSigEntry_wrapInfo (st : RState) (f : Nat) :
    (dropSigEntry st f).1.wrapInfo = st.wrapInfo := by
  unfold dropSigEntry; split <;> rfl

theorem dropSigEntry_nextToken (st : RState) (f : Nat) :
    (dropSigEntry st f).1.nextToken = st.nextToken := by
  unfold dropSigEntry; split <;> rfl

theorem dropSigEntry_funcToWrapperSig_eq_adel (st : RState) (f : Nat) :
    (dropSigEntry st f).1.funcToWrapperSig = adel st.funcToWrapperSig f := by
  unfold dropSigEntry
  cases h : alookup st.funcToWrapperSig f with
  | some w => simp
  | none => simp [adel_of_none _ _ h]

theorem relinkStep_sigTable (f : Nat) (w? : Option Nat) (st : RState) (p : Nat × Nat) :
    (relinkStep f w? st p).sigTable = st.sigTable := by
  simp only [relinkStep]
  split <;> rfl

theorem relinkStep_wrapInfo (f : Nat) (w? : Option Nat) (st : RState) (p : Nat × Nat) :
    (relinkStep f w? st p).wrapInfo = st.wrapInfo := by
  simp only [relinkStep]
  split <;> rfl

theorem relinkStep_funcToWrapperSig (f : Nat) (w? : Option Nat) (st : RState) (p : Nat × Nat) :
    (relinkStep f w? st p).funcToWrapperSig = st.funcToWrapperSig := by
  simp only [relinkStep]
  split <;> rfl

theorem phase1Step_sigTable_ne (w? : Option Nat) (acc : RState) (p : Nat × List Handler)
    (s : Nat) (h : p.1 ≠ s) : (phase1Step w? acc p).sigTable s = acc.sigTable s := by
  unfold phase1Step
  cases w? with
  | none => rfl
  | some w =>
    by_cases hc : acc.sigTable p.1 = Handler.wrap w
    · simp only [hc, if_pos rfl]
      cases p.2 <;> simp [setSig, Ne.symm h]
    · simp [hc]

theorem phase1Step_prevHandler (w? : Option Nat) (acc : RState) (p : Nat × List Handler) :
    (phase1Step w? acc p).prevHandler = acc.prevHandler := by
  unfold phase1Step
  cases w? with
  | none => rfl
  | some w =>
    by_cases hc : acc.sigTable p.1 = Handler.wrap w
    · simp only [hc, if_pos rfl]
      cases p.2 <;> rfl
    · simp [hc]

theorem phase1Step_wrapInfo (w? : Option Nat) (acc : RState) (p : Nat × List Handler) :
    (phase1Step w? acc p).wrapInfo = acc.wrapInfo := by
  unfold phase1Step
  cases w? with
  | none => rfl
  | some w =>
    by_cases hc : acc.sigTable p.1 = Handler.wrap w
    · simp only [hc, if_pos rfl]
      cases p.2 <;> rfl
    · simp [hc]

theorem phase1Step_funcToWrapperSig (w? : Option Nat) (acc : RState) (p : Nat × List Handler) :
    (phase1Step w? acc p).funcToWrapperSig = acc.funcToWrapperSig := by
  unfold phase1Step
  cases w? with
  | none => rfl
  | some w =>
    by_cases hc : acc.sigTable p.1 = Handler.wrap w
    · simp only [hc, if_pos rfl]
      cases p.2 <;> rfl
    · simp [hc]

theorem phase1_prevHandler (w? : Option Nat) (m : List (Nat × List Handler)) (st : RState) :
    (phase1 w? m st).prevHandler = st.prevHandler := by
  unfold phase1
  exact foldl_inv (fun x => x.prevHandler = st.prevHandler) (phase1Step w?)
    (fun s a hs => (phase1Step_prevHandler w? s a).trans hs) m st rfl

theorem phase1_wrapInfo (w? : Option Nat) (m : List (Nat × List Handler)) (st : RState) :
    (phase1 w? m st).wrapInfo = st.wrapInfo := by
  unfold phase1
  exact foldl_inv (fun x => x.wrapInfo = st.wrapInfo) (phase1Step w?)
    (fun s a hs => (phase1Step_wrapInfo w? s a).trans hs) m st rfl

theorem phase1_funcToWrapperSig (w? : Option Nat) (m : List (Nat × List Handler)) (st : RState) :
    (phase1 w? m st).funcToWrapperSig = st.funcToWrapperSig := by
  unfold phase1
  exact foldl_inv (fun x => x.funcToWrapperSig = st.funcToWrapperSig) (phase1Step w?)
    (fun s a hs => (phase1Step_funcToWrapperSig w? s a).trans hs) m st rfl

theorem phase1_sigTable_not_key (w? : Option Nat) (s : Nat) :
    ∀ (m : List (Nat × List Handler)) (st : RState), s ∉ akeys m →
      (phase1 w? m st).sigTable s = st.sigTable s := by
  intro m
  induction m with
  | nil => intro st h; rfl
  | cons p rest ih =>
    intro st h
    simp only [akeys, List.map_cons, List.mem_cons] at h
    push_neg at h
    have h1 : p.1 ≠ s := fun hq => h.1 hq.symm
    have h2 : s ∉ akeys rest := by simpa [akeys] using h.2
    unfold phase1 at ih ⊢
    rw [List.foldl_cons, ih _ h2, phase1Step_sigTable_ne w? st p s h1]

theorem phase1_sigTable_hit (w s : Nat) (l : List Handler) :
    ∀ (m : List (Nat × List Handler)) (st : RState), (akeys m).Nodup →
      alookup m s = some l → st.sigTable s = Handler.wrap w →
      (phase1 (some w) m st).sigTable s = headOr l := by
  intro m
  induction m with
  | nil => intro st _ hl; simp [alookup] at hl
  | cons p rest ih =>
    intro st hnd hl hcur
    obtain ⟨k, v⟩ := p
    simp only [akeys, List.map_cons, List.nodup_cons] at hnd
    by_cases hk : k = s
    · subst hk
      rw [alookup] at hl
      simp at hl
      subst hl
      unfold phase1
      rw [List.foldl_cons]
      have hstep : (phase1Step (some w) st (k, v)).sigTable k = headOr v := by
        unfold phase1Step
        simp only [hcur, if_pos rfl]
        cases v <;> simp [setSig, headOr]
      have hnk : k ∉ akeys rest := by simpa [akeys] using hnd.1
      have := phase1_sigTable_not_key (some w) k rest (phase1Step (some w) st (k, v)) hnk
      unfold phase1 at this
      rw [this, hstep]
    · simp only [alookup, if_neg hk] at hl
      unfold phase1
      rw [List.foldl_cons]
      have hcur2 : (phase1Step (some w) st (k, v)).sigTable s = Handler.wrap w := by
        rw [phase1Step_sigTable_ne (some w) st (k, v) s hk]
        exact hcur
      have := ih (phase1Step (some w) st (k, v)) hnd.2 hl hcur2
      unfold phase1 at this
      exact this

theorem relinkFold_sigTable (f : Nat) (w? : Option Nat)
    (pairs : List (Nat × Nat)) (st : RState) :
    (pairs.foldl (relinkStep f w?) st).sigTable = st.sigTable :=
  foldl_inv (fun x => x.sigTable = st.sigTable) (relinkStep f w?)
    (fun s a hs => (relinkStep_sigTable f w? s a).trans hs) pairs st rfl

theorem relinkChain_sigTable (st : RState) (f : Nat) (w? : Option Nat) :
    (relinkChain st f w?).sigTable
      = (match alookup st.prevHandler f with
         | some m => (phase1 w? m st).sigTable
         | none => st.sigTable) := by
  unfold relinkChain
  cases h : alookup st.prevHandler f with
  | some m =>
    simp only
    exact relinkFold_sigTable f w? _ (phase1 w? m st)
  | none => rfl

/-- Core of claims C5 and C9: if `unregister(f)` runs while the disposition of
a bound signal `s` is still `f`'s own signal wrapper, then afterwards the
disposition of `s` is the saved previous handler, or `SIG_DFL` when none was
saved. -/
theorem unregister_restores (st : RState) (f w s : Nat)
    (m : List (Nat × List Handler)) (l : List Handler)
    (hw : alookup st.funcToWrapperSig f = some w)
    (hm : alookup st.prevHandler f = some m)
    (hl : alookup m s = some l)
    (hnd : (akeys m).Nodup)
    (hcur : st.sigTable s = Handler.wrap w) :
    (unregisterFn st f).sigTable s = headOr l := by
  unfold unregisterFn
  have e1 : (dropExitEntry st f).funcToWrapperSig = st.funcToWrapperSig :=
    dropExitEntry_funcToWrapperSig st f
  have e2 : (dropSigEntry (dropExitEntry st f) f).2 = some w := by
    rw [dropSigEntry_snd, e1, hw]
  have e3 : (dropSigEntry (dropExitEntry st f) f).1.prevHandler = st.prevHandler := by
    rw [dropSigEntry_prevHandler, dropExitEntry_prevHandler]
  have e4 : (dropSigEntry (dropExitEntry st f) f).1.sigTable = st.sigTable := by
    rw [dropSigEntry_sigTable, dropExitEntry_sigTable]
  show (relinkChain (dropSigEntry (dropExitEntry st f) f).1 f
      (dropSigEntry (dropExitEntry st f) f).2).sigTable s = _
  rw [e2, relinkChain_sigTable, e3, hm]
  simp only
  exact phase1_sigTable_hit w s l m _ hnd hl (by rw [e4]; exact hcur)

/-! ## Closed form of a single-signal registration -/

theorem aset_aset {α : Type} (l : List (Nat × α)) (k : Nat) (v1 v2 : α) :
    aset (aset l k v1) k v2 = aset l k v2 := by
  induction l with
  | nil => simp [aset]
  | cons p rest ih =>
    obtain ⟨k3, v3⟩ := p
    by_cases h3 : k3 = k
    · simp [aset, h3]
    · simp [aset, h3, ih]

theorem aset_of_none {α : Type} (l : List (Nat × α)) (k : Nat) (v : α)
    (h : alookup l k = none) : aset l k v = l ++ [(k, v)] := by
  induction l with
  | nil => simp [aset]
  | cons p rest ih =>
    obtain ⟨k3, v3⟩ := p
    by_cases h3 : k3 = k
    · simp [alookup, h3] at h
    · simp only [alookup, if_neg h3] at h
      simp [aset, h3, ih h]

theorem regSigStep_of_empty (f w : Nat) (st0 : RState) (s : Nat)
    (hlook : alookup st0.prevHandler f = some []) :
    regSigStep f w st0 s
      = { st0 with
            prevHandler := aset st0.prevHandler f [(s, savedOf (st0.sigTable s))],
            sigTable := fun x => if x = s then Handler.wrap w else st0.sigTable x } := by
  unfold regSigStep savedOf
  simp only [setSig]
  rw [hlook]
  simp only [Option.getD_some]
  by_cases hc : (st0.sigTable s).callable = false
  · simp only [if_pos hc]
    rfl
  · simp only [if_neg hc]
    by_cases hd : st0.sigTable s = Handler.defaultInt
    · simp only [if_pos hd]
      rfl
    · simp only [if_neg hd]
      have h1 : asetd ([] : List (Nat × List Handler)) s [] = [(s, [])] := rfl
      rw [h1]
      have h2 : alookup [(s, ([] : List Handler))] s = some [] := by simp [alookup]
      rw [h2]
      simp only [Option.getD_some, List.nil_append]
      have h3 : aset [(s, ([] : List Handler))] s [st0.sigTable s]
          = [(s, [st0.sigTable s])] := by simp [aset]
      rw [h3, aset_aset]

theorem registerImpl_single (st : RState) (f s : Nat) (se kb : Bool)
    (hreg : f ∉ st.registered) (hph : alookup st.prevHandler f = none) :
    (registerImpl st f [s] se kb).1
      = { registered := f :: st.registered,
          funcToWrapperExit := aset st.funcToWrapperExit f st.nextToken,
          funcToWrapperSig := aset st.funcToWrapperSig f (st.nextToken + 1),
          prevHandler := st.prevHandler ++ [(f, [(s, savedOf (st.sigTable s))])],
          sigTable := fun x => if x = s then Handler.wrap (st.nextToken + 1) else st.sigTable x,
          atexitStack := st.nextToken :: st.atexitStack,
          exitInfo := aset st.exitInfo st.nextToken f,
          wrapInfo := aset st.wrapInfo (st.nextToken + 1) ⟨f, se, kb⟩,
          nextToken := st.nextToken + 2 } := by
  unfold registerImpl
  rw [if_neg hreg]
  simp only [List.foldl_cons, List.foldl_nil]
  have hst0 : ({ st with prevHandler := asetd st.prevHandler f [] } : RState)
      = { st with prevHandler := st.prevHandler ++ [(f, [])] } := by
    rw [asetd_of_none _ _ _ hph]
  rw [hst0]
  have hlook : alookup (st.prevHandler ++ [(f, ([] : List (Nat × List Handler)))]) f
      = some [] := by
    rw [alookup_append_of_none _ _ _ hph]
    simp [alookup]
  rw [regSigStep_of_empty f (st.nextToken + 1)
    ({ st with prevHandler := st.prevHandler ++ [(f, [])] } : RState) s hlook]
  simp only
  rw [aset_append_of_none _ _ _ _ hph]

/-- C5: if `unregister(f)` runs while the OS-installed handler for a signal
`s` bound to `f` is still `f`'s own signal wrapper, the disposition of `s` is
replaced with the previous handler saved at `f`'s registration for `s`, or
with the default disposition (`SIG_DFL`) if no previous handler was saved. -/
theorem C5_unregister_restores_saved_handler (st : RState) (f w s : Nat)
    (m : List (Nat × List Handler)) (l : List Handler)
    (hw : alookup st.funcToWrapperSig f = some w)
    (hm : alookup st.prevHandler f = some m)
    (hl : alookup m s = some l)
    (hnd : (akeys m).Nodup)
    (hcur : st.sigTable s = Handler.wrap w) :
    (unregisterFn st f).sigTable s = headOr l :=
  unregister_restores st f w s m l hw hm hl hnd hcur

/-- Witness for C5: callback 0 was registered for signal 15 over a foreign
handler; unregistering while its wrapper is still installed restores the
foreign handler. -/
theorem C5_witness :
    (alookup exampleForeignReg.funcToWrapperSig 0 = some 1
      ∧ alookup exampleForeignReg.prevHandler 0 = some [(15, [Handler.foreign 7])]
      ∧ alookup [(15, [Handler.foreign 7])] 15 = some [Handler.foreign 7]
      ∧ (akeys [(15, [Handler.foreign 7])]).Nodup
      ∧ exampleForeignReg.sigTable 15 = Handler.wrap 1)
      ∧ (unregisterFn exampleForeignReg 0).sigTable 15 = headOr [Handler.foreign 7] :=
  ⟨⟨by decide, by decide, by decide, by decide, by decide⟩,
    C5_unregister_restores_saved_handler exampleForeignReg 0 1 15
      [(15, [Handler.foreign 7])] [Handler.foreign 7]
      (by decide) (by decide) (by decide) (by decide) (by decide)⟩

/-! ## Claim C9 -/

/-- C9: a `SIG_IGN` disposition present before `register(f, signals={s})` is
not saved as `f`'s previous handler for `s` (the slot is empty), and a later
`unregister(f)` with `f`'s wrapper still installed therefore sets the
disposition of `s` to `SIG_DFL`, not back to `SIG_IGN`: register followed by
unregister does not round-trip an ignore disposition. -/
theorem C9_ignore_not_roundtripped (st : RState) (f s : Nat) (se kb : Bool)
    (hreg : f ∉ st.registered)
    (hph : alookup st.prevHandler f = none)
    (hsig : st.sigTable s = Handler.ign) :
    alookup ((registerImpl st f [s] se kb).1).prevHandler f = some [(s, [])]
      ∧ (unregisterFn (registerImpl st f [s] se kb).1 f).sigTable s = Handler.dfl := by
  have h1 := registerImpl_single st f s se kb hreg hph
  have hsaved : savedOf (st.sigTable s) = [] := by
    rw [hsig]; rfl
  have hlookup : alookup ((registerImpl st f [s] se kb).1).prevHandler f
      = some [(s, [])] := by
    rw [h1]
    simp only
    rw [alookup_append_of_none _ _ _ hph]
    simp [alookup, hsaved]
  refine ⟨hlookup, ?_⟩
  have := unregister_restores (registerImpl st f [s] se kb).1 f (st.nextToken + 1) s
    [(s, [])] []
    (by rw [h1]; exact alookup_aset_self _ _ _)
    hlookup
    (by simp [alookup])
    (by simp [akeys])
    (by rw [h1]; simp)
  exact this

/-- Witness for C9: with the disposition of signal 15 set to ignore,
registering callback 0 saves no previous handler and unregistering resets the
disposition to the default, not to ignore. -/
theorem C9_witness :
    (0 ∉ (cleanState (fun _ => Handler.ign)).registered
      ∧ alookup (cleanState (fun _ => Handler.ign)).prevHandler 0 = none
      ∧ (cleanState (fun _ => Handler.ign)).sigTable 15 = Handler.ign)
      ∧ (alookup ((registerImpl (cleanState (fun _ => Handler.ign)) 0 [15] false false).1).prevHandler 0
          = some [(15, [])]
        ∧ (unregisterFn ((registerImpl (cleanState (fun _ => Handler.ign)) 0 [15] false false).1) 0).sigTable 15
          = Handler.dfl) :=
  ⟨⟨by decide, by decide, by decide⟩,
    C9_ignore_not_roundtripped (cleanState (fun _ => Handler.ign)) 0 15 false false
      (by decide) (by decide) (by decide)⟩

/-! ## Claim C8 -/

theorem alookup_snoc_none {α : Type} (l : List (Nat × α)) (k x : Nat) (v : α)
    (h1 : alookup l x = none) (h2 : x ≠ k) : alookup (l ++ [(k, v)]) x = none := by
  rw [alookup_append_of_none _ _ _ h1]
  have h3 : ¬k = x := fun hq => h2 hq.symm
  simp [alookup, h3]

theorem regSigStep_general (f w : Nat) (acc : RState) (s : Nat)
    (E : List (Nat × List Handler))
    (hE : alookup acc.prevHandler f = some E)
    (hs : alookup E s = none) :
    regSigStep f w acc s
      = { acc with
            prevHandler := aset acc.prevHandler f (E ++ [(s, savedOf (acc.sigTable s))]),
            sigTable := fun x => if x = s then Handler.wrap w else acc.sigTable x } := by
  unfold regSigStep savedOf
  simp only [setSig]
  rw [hE]
  simp only [Option.getD_some]
  rw [asetd_of_none _ _ _ hs]
  by_cases hc : (acc.sigTable s).callable = false
  · simp only [if_pos hc]
  · simp only [if_neg hc]
    by_cases hd : acc.sigTable s = Handler.defaultInt
    · simp only [if_pos hd]
    · simp only [if_neg hd]
      have h2 : alookup (E ++ [(s, ([] : List Handler))]) s = some [] := by
        rw [alookup_append_of_none _ _ _ hs]
        simp [alookup]
      rw [h2]
      simp only [Option.getD_some, List.nil_append]
      rw [aset_append_of_none _ _ _ _ hs, aset_aset]

theorem regFold_entry (f w : Nat) (st : RState) :
    ∀ (sigs : List Nat) (acc : RState) (E : List (Nat × List Handler)),
      sigs.Nodup →
      alookup acc.prevHandler f = some E →
      (∀ x ∈ sigs, alookup E x = none) →
      (∀ x ∈ sigs, acc.sigTable x = st.sigTable x) →
      alookup ((sigs.foldl (regSigStep f w) acc).prevHandler) f
        = some (E ++ sigs.map (fun x => (x, savedOf (st.sigTable x)))) := by
  intro sigs
  induction sigs with
  | nil =>
    intro acc E _ hE _ _
    simpa using hE
  | cons s rest ih =>
    intro acc E hnd hE hnone htab
    rw [List.foldl_cons]
    rw [regSigStep_general f w acc s E hE (hnone s (List.mem_cons_self s rest))]
    have hset : savedOf (acc.sigTable s) = savedOf (st.sigTable s) := by
      rw [htab s (List.mem_cons_self s rest)]
    rw [hset]
    simp only [List.nodup_cons] at hnd
    have hres := ih
      ({ acc with
          prevHandler := aset acc.prevHandler f (E ++ [(s, savedOf (st.sigTable s))]),
          sigTable := fun x => if x = s then Handler.wrap w else acc.sigTable x } : RState)
      (E ++ [(s, savedOf (st.sigTable s))]) hnd.2
      (alookup_aset_self _ _ _)
      (fun x hx => alookup_snoc_none E s x _ (hnone x (List.mem_cons_of_mem s hx))
        (fun hq => hnd.1 (hq ▸ hx)))
      (fun x hx => by
        have hne : x ≠ s := fun hq => hnd.1 (hq ▸ hx)
        simp only [if_neg hne]
        exact htab x (List.mem_cons_of_mem s hx))
    rw [hres]
    simp

/-- C8: during `register`, the previously installed handler for each requested
signal is recorded as the callback's saved previous handler only when it is
callable and is not the platform's default interrupt handler
(`signal.default_int_handler`): the callback's saved slot for signal `s0` is
exactly `savedOf` of the prior disposition, and `savedOf` stores a handler iff
it is callable and not the default interrupt handler. -/
theorem C8_default_int_handler_never_saved (st : RState) (f : Nat)
    (sigs : List Nat) (se kb : Bool)
    (hreg : f ∉ st.registered) (hph : alookup st.prevHandler f = none)
    (hnd : sigs.Nodup) :
    alookup ((registerImpl st f sigs se kb).1).prevHandler f
        = some (sigs.map (fun x => (x, savedOf (st.sigTable x))))
      ∧ (∀ h : Handler, h.callable = true → h ≠ Handler.defaultInt → savedOf h = [h])
      ∧ (∀ h : Handler, h.callable = false ∨ h = Handler.defaultInt → savedOf h = []) := by
  refine ⟨?_, ?_, ?_⟩
  · unfold registerImpl
    rw [if_neg hreg]
    simp only
    have hE : alookup (({ st with prevHandler := asetd st.prevHandler f [] } : RState)).prevHandler f
        = some [] := by
      simp only
      rw [asetd_of_none _ _ _ hph, alookup_append_of_none _ _ _ hph]
      simp [alookup]
    have := regFold_entry f (st.nextToken + 1) st sigs
      ({ st with prevHandler := asetd st.prevHandler f [] } : RState) [] hnd hE
      (fun x _ => rfl) (fun x _ => rfl)
    simpa using this
  · intro h hc hd
    unfold savedOf
    rw [hc]
    simp [hd]
  · intro h hcd
    unfold savedOf
    cases hcd with
    | inl hc => rw [hc]; rfl
    | inr hd => subst hd; simp [Handler.callable]

/-- Witness for C8: registering callback 0 for signals 15 (foreign prior
handler) and 2 (default interrupt handler installed) records the foreign
handler and skips the default interrupt handler. -/
theorem C8_witness :
    (0 ∉ (cleanState (fun x => if x = 2 then Handler.defaultInt else Handler.foreign 3)).registered
      ∧ alookup (cleanState (fun x => if x = 2 then Handler.defaultInt else Handler.foreign 3)).prevHandler 0 = none
      ∧ ([15, 2] : List Nat).Nodup)
      ∧ alookup ((registerImpl (cleanState (fun x => if x = 2 then Handler.defaultInt else Handler.foreign 3)) 0 [15, 2] false false).1).prevHandler 0
        = some [(15, [Handler.foreign 3]), (2, [])] :=
  ⟨⟨by decide, by decide, by decide⟩,
    ((C8_default_int_handler_never_saved
        (cleanState (fun x => if x = 2 then Handler.defaultInt else Handler.foreign 3))
        0 [15, 2] false false (by decide) (by decide) (by decide)).1).trans (by decide)⟩

/-! ## Per-signal handler chains (claims C2, C3, C4) -/

theorem linkEF_cons (c : Cell) (cs : List Cell) (t : List Handler) :
    linkEF (c :: cs) t = linkEF cs [Handler.wrap c.w] := by
  cases cs with
  | nil => rfl
  | cons d rest =>
    unfold linkEF
    rw [List.getLast?_cons_cons]
    cases hL : (d :: rest).getLast? with
    | some e => rfl
    | none =>
      rw [List.getLast?_eq_none_iff] at hL
      cases hL

theorem tblEF_append (s : Nat) (X Y : List Cell) (t : List Handler) :
    tblEF s (X ++ Y) t = tblEF s X t ++ tblEF s Y (linkEF X t) := by
  induction X generalizing t with
  | nil => rfl
  | cons c rest ih =>
    simp only [List.cons_append, tblEF, List.append_eq]
    rw [ih [Handler.wrap c.w], linkEF_cons]

theorem tblEF_keys (s : Nat) :
    ∀ (cs : List Cell) (t : List Handler),
      akeys (tblEF s cs t) = cs.map (fun c => c.f) := by
  intro cs
  induction cs with
  | nil => intro t; rfl
  | cons c rest ih => intro t; simp [tblEF, akeys, List.map_cons] at ih ⊢; exact ih _

theorem alookup_none_of_not_key {α : Type} (l : List (Nat × α)) (k : Nat)
    (h : k ∉ akeys l) : alookup l k = none := by
  induction l with
  | nil => rfl
  | cons p rest ih =>
    simp only [akeys, List.map_cons, List.mem_cons] at h
    push_neg at h
    have hne : ¬p.1 = k := fun hq => h.1 hq.symm
    simp only [alookup, if_neg hne]
    exact ih (by simpa [akeys] using h.2)

theorem alookup_mem_key {α : Type} (l : List (Nat × α)) (k : Nat) (v : α)
    (h : alookup l k = some v) : k ∈ akeys l := by
  induction l with
  | nil => simp [alookup] at h
  | cons p rest ih =>
    by_cases h3 : p.1 = k
    · simp [akeys, h3]
    · simp only [alookup, if_neg h3] at h
      simp [akeys, List.mem_cons]
      right
      simpa [akeys] using ih h

theorem adel_append {α : Type} (X Y : List (Nat × α)) (k : Nat) :
    adel (X ++ Y) k = adel X k ++ adel Y k := by
  simp [adel, List.filter_append]

theorem adel_not_key {α : Type} (l : List (Nat × α)) (k : Nat)
    (h : k ∉ akeys l) : adel l k = l :=
  adel_of_none l k (alookup_none_of_not_key l k h)

theorem adel_cons_self {α : Type} (l : List (Nat × α)) (k : Nat) (v : α) :
    adel ((k, v) :: l) k = adel l k := by
  simp [adel, List.filter]

theorem aset_middle {α : Type} (P1 P2 : List (Nat × α)) (g : Nat) (v0 v : α)
    (h : g ∉ akeys P1) : aset (P1 ++ (g, v0) :: P2) g v = P1 ++ (g, v) :: P2 := by
  induction P1 with
  | nil => simp [aset]
  | cons p rest ih =>
    simp only [akeys, List.map_cons, List.mem_cons] at h
    push_neg at h
    have hne : ¬p.1 = g := fun hq => h.1 hq.symm
    simp only [List.cons_append, aset, if_neg hne, List.append_eq]
    rw [ih (by simpa [akeys] using h.2)]

theorem alookup_middle {α : Type} (P1 P2 : List (Nat × α)) (g : Nat) (v : α)
    (h : g ∉ akeys P1) : alookup (P1 ++ (g, v) :: P2) g = some v := by
  rw [alookup_append_of_none _ _ _ (alookup_none_of_not_key P1 g h)]
  simp [alookup]

theorem foldl_noop {α σ : Type} (g : σ → α → σ) (l : List α) (st : σ)
    (h : ∀ p ∈ l, g st p = st) : l.foldl g st = st := by
  induction l with
  | nil => rfl
  | cons a rest ih =>
    rw [List.foldl_cons, h a (List.mem_cons_self a rest)]
    exact ih (fun p hp => h p (List.mem_cons_of_mem a hp))

theorem pairs_tblEF (s : Nat) :
    ∀ (cs : List Cell) (t : List Handler),
      (tblEF s cs t).flatMap (fun q => q.2.map (fun r : Nat × List Handler => (q.1, r.1)))
        = cs.map (fun x => (x.f, s)) := by
  intro cs
  induction cs with
  | nil => intro t; rfl
  | cons c rest ih =>
    intro t
    simp only [tblEF, List.flatMap_cons, List.map_cons]
    rw [ih [Handler.wrap c.w]]
    rfl

theorem relinkStep_noop_entry (f w : Nat) (st : RState) (g sgn : Nat) (lg : List Handler)
    (hfn : alookup ((alookup st.prevHandler g).getD []) sgn = some lg)
    (hhead : ∀ l2 : List Handler, lg ≠ Handler.wrap w :: l2) :
    relinkStep f (some w) st (g, sgn) = st := by
  simp only [relinkStep]
  rw [hfn]
  simp only [Option.getD_some]
  cases lg with
  | nil => simp
  | cons hd tt =>
    cases hd with
    | dfl => simp
    | ign => simp
    | defaultInt => simp
    | foreign n => simp
    | wrap w2 =>
      have hne : (w2 == w) = false := by
        by_cases hw2 : w2 = w
        · exact absurd (by rw [hw2]) (hhead tt)
        · simp [hw2]
      simp [hne]

theorem relinkStep_hit_entry (f w : Nat) (st : RState) (g sgn : Nat)
    (mf dfn : List (Nat × List Handler)) (v l2 : List Handler)
    (hmf : alookup st.prevHandler f = some mf)
    (hv : alookup mf sgn = some v)
    (hfn : alookup st.prevHandler g = some dfn)
    (hl : alookup dfn sgn = some (Handler.wrap w :: l2)) :
    relinkStep f (some w) st (g, sgn)
      = { st with prevHandler := aset st.prevHandler g (aset dfn sgn v) } := by
  simp only [relinkStep]
  rw [hmf, hfn]
  simp only [Option.getD_some]
  rw [hl, hv]
  simp

theorem tblEF_entry_heads (s cW : Nat) :
    ∀ (cs : List Cell) (link0 : List Handler),
      (cs.map (fun c => c.f)).Nodup →
      (∀ l2 : List Handler, link0 ≠ Handler.wrap cW :: l2) →
      (∀ x ∈ cs, x.w ≠ cW) →
      ∀ g ∈ cs, ∃ ℓ, alookup (tblEF s cs link0) g.f = some [(s, ℓ)]
        ∧ ∀ l2 : List Handler, ℓ ≠ Handler.wrap cW :: l2 := by
  intro cs
  induction cs with
  | nil => intro link0 _ _ _ g hg; cases hg
  | cons x rest ih =>
    intro link0 hnd hlink htok g hg
    simp only [List.map_cons, List.nodup_cons] at hnd
    cases hg with
    | head =>
      refine ⟨link0, ?_, hlink⟩
      simp [tblEF, alookup]
    | tail _ hg2 =>
      have hne : ¬x.f = g.f := by
        intro hq
        exact hnd.1 (hq ▸ List.mem_map_of_mem (fun c => c.f) hg2)
      have := ih [Handler.wrap x.w] hnd.2
        (fun l2 hq => htok x (List.mem_cons_self x rest) (by injection hq with h1 _; injection h1))
        (fun y hy => htok y (List.mem_cons_of_mem x hy)) g hg2
      obtain ⟨ℓ, hℓ, hh⟩ := this
      refine ⟨ℓ, ?_, hh⟩
      simp only [tblEF, alookup, if_neg hne]
      exact hℓ

theorem mem_of_getLast? {α : Type} : ∀ (l : List α) (a : α), l.getLast? = some a → a ∈ l := by
  intro l
  induction l with
  | nil => intro a h; simp [List.getLast?] at h
  | cons x rest ih =>
    intro a h
    cases rest with
    | nil =>
      simp [List.getLast?] at h
      simp [h]
    | cons y rest2 =>
      rw [List.getLast?_cons_cons] at h
      exact List.mem_cons_of_mem x (ih a h)

theorem phase1Step_hit (w : Nat) (acc : RState) (p : Nat × List Handler)
    (h : acc.sigTable p.1 = Handler.wrap w) :
    phase1Step (some w) acc p = setSig acc p.1 (headOr p.2) := by
  unfold phase1Step headOr
  dsimp only
  rw [if_pos h]
  cases p.2 <;> rfl

theorem phase1Step_miss (w : Nat) (acc : RState) (p : Nat × List Handler)
    (h : ¬acc.sigTable p.1 = Handler.wrap w) :
    phase1Step (some w) acc p = acc := by
  unfold phase1Step
  dsimp only
  rw [if_neg h]

theorem phase1Step_nextToken (w? : Option Nat) (acc : RState) (p : Nat × List Handler) :
    (phase1Step w? acc p).nextToken = acc.nextToken := by
  unfold phase1Step
  cases w? with
  | none => rfl
  | some w =>
    by_cases hc : acc.sigTable p.1 = Handler.wrap w
    · simp only [hc, if_pos rfl]
      cases p.2 <;> rfl
    · simp [hc]

theorem relinkStep_nextToken (f : Nat) (w? : Option Nat) (st : RState) (p : Nat × Nat) :
    (relinkStep f w? st p).nextToken = st.nextToken := by
  simp only [relinkStep]
  split <;> rfl

theorem headOr_linkEF (cs : List Cell) (t : List Handler) :
    headOr (linkEF cs t) = topOfExact cs t := by
  unfold linkEF topOfExact
  cases cs.getLast? with
  | some c => rfl
  | none => rfl

theorem tail_safe (t : List Handler) (cW : Nat)
    (h : t = [] ∨ ∃ n, t = [Handler.foreign n]) :
    ∀ l2 : List Handler, t ≠ Handler.wrap cW :: l2 := by
  intro l2
  cases h with
  | inl h0 => rw [h0]; simp
  | inr h1 => obtain ⟨n, hn⟩ := h1; rw [hn]; simp

theorem linkEF_safe (A : List Cell) (t : List Handler) (cW : Nat)
    (htok : ∀ x ∈ A, x.w ≠ cW)
    (ht : ∀ l2 : List Handler, t ≠ Handler.wrap cW :: l2) :
    ∀ l2 : List Handler, linkEF A t ≠ Handler.wrap cW :: l2 := by
  intro l2
  unfold linkEF
  cases hL : A.getLast? with
  | some e =>
    have he : e ∈ A := mem_of_getLast? A e hL
    intro hq
    injection hq with h1 _
    injection h1 with h2
    exact htok e he h2
  | none => exact ht l2

theorem mapPair_keys (cs : List Cell) :
    akeys (cs.map (fun c => (c.f, c.w))) = cs.map (fun c => c.f) := by
  simp [akeys, List.map_map]

theorem nodup_middle_parts {α : Type} (l1 : List α) (a : α) (l2 : List α)
    (h : (l1 ++ a :: l2).Nodup) :
    l1.Nodup ∧ l2.Nodup ∧ a ∉ l1 ∧ a ∉ l2 ∧ (l1 ++ l2).Nodup := by
  rw [List.nodup_middle] at h
  rcases List.nodup_cons.mp h with ⟨hna, hrest⟩
  refine ⟨hrest.of_append_left, hrest.of_append_right, ?_, ?_, hrest⟩
  · exact fun hm => hna (List.mem_append.mpr (Or.inl hm))
  · exact fun hm => hna (List.mem_append.mpr (Or.inr hm))

theorem savedOf_headOr (t : List Handler) (h : t = [] ∨ ∃ n, t = [Handler.foreign n]) :
    savedOf (headOr t) = t ∧ ∀ w2, headOr t ≠ Handler.wrap w2 := by
  cases h with
  | inl h0 =>
    subst h0
    constructor
    · simp [headOr, savedOf, Handler.callable]
    · simp [headOr]
  | inr h1 =>
    obtain ⟨n, hn⟩ := h1
    subst hn
    constructor
    · simp [headOr, savedOf, Handler.callable]
    · simp [headOr]

theorem aset_singleton_self {α : Type} (k : Nat) (v0 v : α) :
    aset [(k, v0)] k v = [(k, v)] := by
  simp [aset]

theorem adel_cons_ne {α : Type} (l : List (Nat × α)) (k k2 : Nat) (v : α)
    (h : k2 ≠ k) : adel ((k2, v) :: l) k = (k2, v) :: adel l k := by
  simp [adel, List.filter, h]

theorem chain_unregister_core (st : RState) (s : Nat) (A : List Cell) (c : Cell)
    (B : List Cell) (t : List Handler)
    (hc : ChainCore st s (A ++ c :: B) t) :
    ChainCore (unregisterFn st c.f) s (A ++ B) t
      ∧ (unregisterFn st c.f).sigTable s = topOfExact (A ++ B) t := by
  have hf := nodup_middle_parts (A.map (fun c => c.f)) c.f (B.map (fun c => c.f))
    (by simpa using hc.fnodup)
  have hw := nodup_middle_parts (A.map (fun c => c.w)) c.w (B.map (fun c => c.w))
    (by simpa using hc.wnodup)
  have hcwA : ∀ x ∈ A, x.w ≠ c.w :=
    fun x hx hq => hw.2.2.1 (hq ▸ List.mem_map_of_mem (fun c => c.w) hx)
  have hcwB : ∀ x ∈ B, x.w ≠ c.w :=
    fun x hx hq => hw.2.2.2.1 (hq ▸ List.mem_map_of_mem (fun c => c.w) hx)
  have htsafe := tail_safe t c.w hc.tailok
  have hlsafe := linkEF_safe A t c.w hcwA htsafe
  have htbl : st.prevHandler
      = tblEF s A t ++ (c.f, [(s, linkEF A t)]) :: tblEF s B [Handler.wrap c.w] := by
    rw [hc.ptab, tblEF_append]
    rfl
  have hkA : akeys (tblEF s A t) = A.map (fun c => c.f) := tblEF_keys s A t
  have hcfA : c.f ∉ akeys (tblEF s A t) := by rw [hkA]; exact hf.2.2.1
  have hm : alookup st.prevHandler c.f = some [(s, linkEF A t)] := by
    rw [htbl]; exact alookup_middle _ _ _ _ hcfA
  have hsig1 : st.funcToWrapperSig
      = A.map (fun c => (c.f, c.w)) ++ (c.f, c.w) :: B.map (fun c => (c.f, c.w)) := by
    rw [hc.stab]; simp
  have hcfA2 : c.f ∉ akeys (A.map (fun c => (c.f, c.w))) := by
    rw [mapPair_keys]; exact hf.2.2.1
  have hcfB2 : c.f ∉ akeys (B.map (fun c => (c.f, c.w))) := by
    rw [mapPair_keys]; exact hf.2.2.2.1
  have hwlook : alookup st.funcToWrapperSig c.f = some c.w := by
    rw [hsig1]; exact alookup_middle _ _ _ _ hcfA2
  have e1 : (dropExitEntry st c.f).funcToWrapperSig = st.funcToWrapperSig :=
    dropExitEntry_funcToWrapperSig st c.f
  have hsnd : (dropSigEntry (dropExitEntry st c.f) c.f).2 = some c.w := by
    rw [dropSigEntry_snd, e1, hwlook]
  set st2 := (dropSigEntry (dropExitEntry st c.f) c.f).1 with hst2
  have p2 : st2.prevHandler = st.prevHandler := by
    rw [hst2, dropSigEntry_prevHandler, dropExitEntry_prevHandler]
  have p3 : st2.sigTable = st.sigTable := by
    rw [hst2, dropSigEntry_sigTable, dropExitEntry_sigTable]
  have p4 : st2.wrapInfo = st.wrapInfo := by
    rw [hst2, dropSigEntry_wrapInfo, dropExitEntry_wrapInfo]
  have p5 : st2.nextToken = st.nextToken := by
    rw [hst2, dropSigEntry_nextToken, dropExitEntry_nextToken]
  have p6 : st2.funcToWrapperSig = (A ++ B).map (fun c => (c.f, c.w)) := by
    rw [hst2, dropSigEntry_funcToWrapperSig_eq_adel, e1, hsig1,
      adel_append, adel_not_key _ _ hcfA2, adel_cons_self, adel_not_key _ _ hcfB2]
    simp
  have hm2 : alookup st2.prevHandler c.f = some [(s, linkEF A t)] := by
    rw [p2]; exact hm
  have hU : unregisterFn st c.f
      = { relinkChain st2 c.f (some c.w) with
          registered :=
            (relinkChain st2 c.f (some c.w)).registered.filter (fun g => g ≠ c.f) } := by
    unfold unregisterFn
    dsimp only
    rw [← hst2, hsnd]
  cases B with
  | nil =>
    have hlastAc : (A ++ c :: ([] : List Cell)).getLast? = some c := by
      rw [List.getLast?_append_cons]
      rfl
    have htopc : st.sigTable s = Handler.wrap c.w := by
      have h := hc.top
      rw [hlastAc] at h
      exact h
    have hsta : phase1 (some c.w) [(s, linkEF A t)] st2
        = setSig st2 s (topOfExact A t) := by
      have h1 : phase1 (some c.w) [(s, linkEF A t)] st2
          = phase1Step (some c.w) st2 (s, linkEF A t) := rfl
      rw [h1, phase1Step_hit c.w st2 (s, linkEF A t) (by rw [p3]; exact htopc)]
      dsimp only
      rw [headOr_linkEF]
    have hprevA : (setSig st2 s (topOfExact A t)).prevHandler = tblEF s (A ++ [c]) t := by
      show st2.prevHandler = _
      rw [p2, hc.ptab]
    have hpairs : (setSig st2 s (topOfExact A t)).prevHandler.flatMap
        (fun q => q.2.map (fun r : Nat × List Handler => (q.1, r.1)))
        = (A ++ [c]).map (fun x => (x.f, s)) := by
      rw [hprevA, pairs_tblEF]
    have hcentry : alookup (tblEF s (A ++ [c]) t) c.f = some [(s, linkEF A t)] := by
      rw [tblEF_append]
      exact alookup_middle _ _ _ _ hcfA
    have hfold : ((A ++ [c]).map (fun x => (x.f, s))).foldl
        (relinkStep c.f (some c.w)) (setSig st2 s (topOfExact A t))
        = setSig st2 s (topOfExact A t) := by
      apply foldl_noop
      intro p hp
      rw [List.mem_map] at hp
      obtain ⟨x, hx, hpx⟩ := hp
      subst hpx
      rcases List.mem_append.mp hx with hxA | hxc
      · obtain ⟨ℓ, hlook, hsafe⟩ := tblEF_entry_heads s c.w A t hf.1 htsafe hcwA x hxA
        apply relinkStep_noop_entry _ _ _ _ _ ℓ _ hsafe
        rw [hprevA, tblEF_append, alookup_append_of_some _ _ _ _ hlook]
        simp [alookup]
      · rw [List.mem_singleton] at hxc
        subst hxc
        apply relinkStep_noop_entry _ _ _ _ _ (linkEF A t) _ hlsafe
        rw [hprevA, hcentry]
        simp [alookup]
    have hadel : adel (tblEF s (A ++ [c]) t) c.f = tblEF s A t := by
      rw [tblEF_append, adel_append, adel_not_key _ _ hcfA]
      simp [tblEF, adel, List.filter]
    have hRC : relinkChain st2 c.f (some c.w)
        = { setSig st2 s (topOfExact A t) with prevHandler := tblEF s A t } := by
      unfold relinkChain
      rw [hm2]
      dsimp only
      rw [hsta, hpairs, hfold, hprevA, hadel]
    have hfin := hU
    rw [hRC] at hfin
    have F0 : (unregisterFn st c.f).prevHandler = tblEF s A t := by rw [hfin]
    have F1 : (unregisterFn st c.f).funcToWrapperSig
        = (A ++ ([] : List Cell)).map (fun c => (c.f, c.w)) := by
      rw [hfin]; exact p6
    have F2 : (unregisterFn st c.f).wrapInfo = st.wrapInfo := by rw [hfin]; exact p4
    have F3 : (unregisterFn st c.f).nextToken = st.nextToken := by rw [hfin]; exact p5
    have F4 : (unregisterFn st c.f).sigTable s = topOfExact A t := by
      rw [hfin]
      simp [setSig]
    refine ⟨⟨?_, ?_, ?_, ?_, ?_, ?_, ?_, ?_, ?_⟩, ?_⟩
    · rw [List.append_nil]; exact F0
    · exact F1
    · intro x hx
      rw [F2]
      exact hc.winfo x (by
        rcases List.mem_append.mp hx with h1 | h1
        · exact List.mem_append.mpr (Or.inl h1)
        · cases h1)
    · intro x hx
      rw [F3]
      exact hc.wbound x (by
        rcases List.mem_append.mp hx with h1 | h1
        · exact List.mem_append.mpr (Or.inl h1)
        · cases h1)
    · intro k hk
      rw [F2] at hk
      rw [F3]
      exact hc.wkeys k hk
    · simpa using hf.1
    · simpa using hw.1
    · exact hc.tailok
    · rw [List.append_nil]
      cases hA : A.getLast? with
      | some a =>
        dsimp only
        rw [F4]
        simp [topOfExact, hA]
      | none =>
        dsimp only
        rw [F4]
        simp only [topOfExact, hA]
        exact savedOf_headOr t hc.tailok
    · rw [List.append_nil]
      exact F4
  | cons d B2 =>
    obtain ⟨e, hgl⟩ : ∃ e, (d :: B2).getLast? = some e := by
      cases hL : (d :: B2).getLast? with
      | some e => exact ⟨e, rfl⟩
      | none => rw [List.getLast?_eq_none_iff] at hL; cases hL
    have hlast : (A ++ c :: d :: B2).getLast? = some e := by
      rw [List.getLast?_append_cons, List.getLast?_cons_cons, hgl]
    have htop : st.sigTable s = Handler.wrap e.w := by
      have h := hc.top
      rw [hlast] at h
      exact h
    have heB : e ∈ d :: B2 := mem_of_getLast? _ e hgl
    have hewne : e.w ≠ c.w := hcwB e heB
    have hsta : phase1 (some c.w) [(s, linkEF A t)] st2 = st2 := by
      apply phase1Step_miss c.w st2 (s, linkEF A t)
      dsimp only
      rw [p3, htop]
      intro hq
      injection hq with hq2
      exact hewne hq2
    have htblB : st.prevHandler
        = tblEF s A t ++ (c.f, [(s, linkEF A t)]) :: (d.f, [(s, [Handler.wrap c.w])])
            :: tblEF s B2 [Handler.wrap d.w] := by
      rw [htbl]
      rfl
    have hdisj : (A.map (fun c => c.f)).Disjoint ((d :: B2).map (fun c => c.f)) :=
      (List.nodup_append.mp hf.2.2.2.2).2.2
    have hdfA : d.f ∉ akeys (tblEF s A t) := by
      rw [tblEF_keys]
      exact fun hmem =>
        hdisj hmem (List.mem_map_of_mem (fun c => c.f) (List.mem_cons_self d B2))
    have hdfc : ¬c.f = d.f := by
      intro hq
      exact hf.2.2.2.1 (hq ▸ List.mem_map_of_mem (fun c => c.f) (List.mem_cons_self d B2))
    have hB2f : d.f ∉ B2.map (fun c => c.f) ∧ (B2.map (fun c => c.f)).Nodup := by
      have := hf.2.1
      simp only [List.map_cons, List.nodup_cons] at this
      exact this
    have hdlook : alookup st2.prevHandler d.f = some [(s, [Handler.wrap c.w])] := by
      rw [p2, htblB, List.append_cons (tblEF s A t) (c.f, [(s, linkEF A t)]) _]
      apply alookup_middle
      rw [akeys, List.map_append]
      simp only [List.mem_append]
      push_neg
      constructor
      · rw [show List.map (fun p => p.1) (tblEF s A t) = akeys (tblEF s A t) from rfl]
        exact hdfA
      · simp only [List.map_cons, List.map_nil, List.mem_singleton]
        exact fun hq => hdfc hq.symm
    have hfoldA : (A.map (fun x => (x.f, s))).foldl (relinkStep c.f (some c.w)) st2 = st2 := by
      apply foldl_noop
      intro p hp
      rw [List.mem_map] at hp
      obtain ⟨x, hx, hpx⟩ := hp
      subst hpx
      obtain ⟨ℓ, hlook, hsafe⟩ := tblEF_entry_heads s c.w A t hf.1 htsafe hcwA x hx
      apply relinkStep_noop_entry _ _ _ _ _ ℓ _ hsafe
      rw [p2, htbl, alookup_append_of_some _ _ _ _ hlook]
      simp [alookup]
    have hstepc : relinkStep c.f (some c.w) st2 (c.f, s) = st2 := by
      apply relinkStep_noop_entry _ _ _ _ _ (linkEF A t) _ hlsafe
      rw [hm2]
      simp [alookup]
    have hstephit : relinkStep c.f (some c.w) st2 (d.f, s)
        = { st2 with prevHandler := aset st2.prevHandler d.f [(s, linkEF A t)] } := by
      have hh := relinkStep_hit_entry c.f c.w st2 d.f s [(s, linkEF A t)]
        [(s, [Handler.wrap c.w])] (linkEF A t) [] hm2 (by simp [alookup]) hdlook
        (by simp [alookup])
      rw [aset_singleton_self] at hh
      exact hh
    have hhitprev : aset st2.prevHandler d.f [(s, linkEF A t)]
        = tblEF s A t ++ (c.f, [(s, linkEF A t)]) :: (d.f, [(s, linkEF A t)])
            :: tblEF s B2 [Handler.wrap d.w] := by
      rw [p2, htblB, List.append_cons (tblEF s A t) (c.f, [(s, linkEF A t)]) _]
      rw [aset_middle _ _ _ _ _ (by
        rw [akeys, List.map_append]
        simp only [List.mem_append]
        push_neg
        constructor
        · rw [show List.map (fun p => p.1) (tblEF s A t) = akeys (tblEF s A t) from rfl]
          exact hdfA
        · simp only [List.map_cons, List.map_nil, List.mem_singleton]
          exact fun hq => hdfc hq.symm)]
      rw [← List.append_cons]
    have hfoldB2 : (B2.map (fun x => (x.f, s))).foldl (relinkStep c.f (some c.w))
        ({ st2 with prevHandler := aset st2.prevHandler d.f [(s, linkEF A t)] } : RState)
        = { st2 with prevHandler := aset st2.prevHandler d.f [(s, linkEF A t)] } := by
      apply foldl_noop
      intro p hp
      rw [List.mem_map] at hp
      obtain ⟨x, hx, hpx⟩ := hp
      subst hpx
      have hxB : x ∈ d :: B2 := List.mem_cons_of_mem d hx
      obtain ⟨ℓ, hlook, hsafe⟩ := tblEF_entry_heads s c.w B2 [Handler.wrap d.w] hB2f.2
        (by
          intro l2 hq
          injection hq with h1 _
          injection h1 with h2
          exact hcwB d (List.mem_cons_self d B2) h2)
        (fun y hy => hcwB y (List.mem_cons_of_mem d hy)) x hx
      apply relinkStep_noop_entry _ _ _ _ _ ℓ _ hsafe
      have hxA2 : x.f ∉ akeys (tblEF s A t) := by
        rw [tblEF_keys]
        exact fun hmem => hdisj hmem (List.mem_map_of_mem (fun c => c.f) hxB)
      have hxc : ¬c.f = x.f := by
        intro hq
        exact hf.2.2.2.1 (hq ▸ List.mem_map_of_mem (fun c => c.f) hxB)
      have hxd : ¬d.f = x.f := by
        intro hq
        exact hB2f.1 (hq ▸ List.mem_map_of_mem (fun c => c.f) hx)
      show alookup ((alookup ({ st2 with
          prevHandler := aset st2.prevHandler d.f [(s, linkEF A t)] } : RState).prevHandler
            x.f).getD []) s = some ℓ
      show alookup ((alookup (aset st2.prevHandler d.f [(s, linkEF A t)]) x.f).getD []) s
        = some ℓ
      rw [hhitprev,
        alookup_append_of_none _ _ _ (alookup_none_of_not_key _ _ hxA2)]
      simp only [alookup, if_neg hxc, if_neg hxd]
      rw [hlook]
      simp [alookup]
    have hfold : ((A ++ c :: d :: B2).map (fun x => (x.f, s))).foldl
        (relinkStep c.f (some c.w)) st2
        = ({ st2 with prevHandler := aset st2.prevHandler d.f [(s, linkEF A t)] } : RState) := by
      rw [List.map_append, List.map_cons, List.map_cons, List.foldl_append, hfoldA,
        List.foldl_cons, hstepc, List.foldl_cons, hstephit, hfoldB2]
    have hadel2 : adel (aset st2.prevHandler d.f [(s, linkEF A t)]) c.f
        = tblEF s (A ++ d :: B2) t := by
      rw [hhitprev, adel_append, adel_not_key _ _ hcfA, adel_cons_self,
        adel_cons_ne _ _ _ _ (fun hq => hdfc hq.symm),
        adel_not_key _ _ (by
          rw [tblEF_keys]
          intro hmem
          exact hf.2.2.2.1 (by
            simp only [List.map_cons]
            exact List.mem_cons_of_mem d.f hmem))]
      rw [tblEF_append]
      rfl
    have hRC : relinkChain st2 c.f (some c.w)
        = { ({ st2 with prevHandler := aset st2.prevHandler d.f [(s, linkEF A t)] } : RState) with
            prevHandler := tblEF s (A ++ d :: B2) t } := by
      unfold relinkChain
      rw [hm2]
      dsimp only
      rw [hsta]
      rw [show st2.prevHandler.flatMap
          (fun q => q.2.map (fun r : Nat × List Handler => (q.1, r.1)))
          = (A ++ c :: d :: B2).map (fun x => (x.f, s)) by
        rw [p2, hc.ptab, pairs_tblEF]]
      rw [hfold]
      rw [show ({ st2 with
          prevHandler := aset st2.prevHandler d.f [(s, linkEF A t)] } : RState).prevHandler
          = aset st2.prevHandler d.f [(s, linkEF A t)] from rfl]
      rw [hadel2]
    have F0 : (unregisterFn st c.f).prevHandler = tblEF s (A ++ d :: B2) t := by
      rw [hU, hRC]
    have F1 : (unregisterFn st c.f).funcToWrapperSig
        = (A ++ d :: B2).map (fun c => (c.f, c.w)) := by
      rw [hU, hRC]; exact p6
    have F2 : (unregisterFn st c.f).wrapInfo = st.wrapInfo := by rw [hU, hRC]; exact p4
    have F3 : (unregisterFn st c.f).nextToken = st.nextToken := by rw [hU, hRC]; exact p5
    have F4 : (unregisterFn st c.f).sigTable s = Handler.wrap e.w := by
      rw [hU, hRC]
      show st2.sigTable s = Handler.wrap e.w
      rw [p3, htop]
    refine ⟨⟨?_, ?_, ?_, ?_, ?_, ?_, ?_, ?_, ?_⟩, ?_⟩
    · exact F0
    · exact F1
    · intro x hx
      rw [F2]
      exact hc.winfo x (by
        rcases List.mem_append.mp hx with h1 | h1
        · exact List.mem_append.mpr (Or.inl h1)
        · exact List.mem_append.mpr (Or.inr (List.mem_cons_of_mem c h1)))
    · intro x hx
      rw [F3]
      exact hc.wbound x (by
        rcases List.mem_append.mp hx with h1 | h1
        · exact List.mem_append.mpr (Or.inl h1)
        · exact List.mem_append.mpr (Or.inr (List.mem_cons_of_mem c h1)))
    · intro k hk
      rw [F2] at hk
      rw [F3]
      exact hc.wkeys k hk
    · simpa using hf.2.2.2.2
    · simpa using hw.2.2.2.2
    · exact hc.tailok
    · rw [List.getLast?_append_cons, hgl]
      exact F4
    · rw [show topOfExact (A ++ d :: B2) t = Handler.wrap e.w by
        simp [topOfExact, List.getLast?_append_cons, hgl]]
      exact F4

theorem savedOf_wrap (w : Nat) : savedOf (Handler.wrap w) = [Handler.wrap w] := by
  simp [savedOf, Handler.callable]

theorem savedOf_tailok (h : Handler) (hnw : ∀ w2, h ≠ Handler.wrap w2) :
    savedOf h = [] ∨ ∃ n, savedOf h = [Handler.foreign n] := by
  cases h with
  | dfl => left; rfl
  | ign => left; rfl
  | defaultInt => left; simp [savedOf, Handler.callable]
  | foreign n => right; exact ⟨n, by simp [savedOf, Handler.callable]⟩
  | wrap w2 => exact absurd rfl (hnw w2)

theorem chainCore_clean (S0 : Nat → Handler) (s : Nat)
    (hS0 : ∀ w2, S0 s ≠ Handler.wrap w2) :
    ChainCore (cleanState S0) s [] (savedOf (S0 s)) := by
  refine ⟨rfl, rfl, ?_, ?_, ?_, List.nodup_nil, List.nodup_nil, ?_, ?_⟩
  · intro c hc; cases hc
  · intro c hc; cases hc
  · intro k hk; cases hk
  · exact savedOf_tailok (S0 s) hS0
  · exact ⟨rfl, hS0⟩

theorem chain_register (st : RState) (s : Nat) (cs : List Cell) (t : List Handler)
    (f : Nat) (se kb : Bool) (hc : ChainCore st s cs t)
    (hreg : f ∉ st.registered) (hfnew : f ∉ cs.map (fun c => c.f)) :
    ChainCore (registerImpl st f [s] se kb).1 s
        (cs ++ [⟨f, st.nextToken + 1, se, kb⟩]) t
      ∧ (registerImpl st f [s] se kb).1.registered = f :: st.registered := by
  have hph : alookup st.prevHandler f = none := by
    rw [hc.ptab]
    exact alookup_none_of_not_key _ _ (by rw [tblEF_keys]; exact hfnew)
  have h1 := registerImpl_single st f s se kb hreg hph
  have hsaved : savedOf (st.sigTable s) = linkEF cs t := by
    have h := hc.top
    unfold linkEF
    cases hL : cs.getLast? with
    | some c =>
      rw [hL] at h
      rw [h, savedOf_wrap]
    | none =>
      rw [hL] at h
      exact h.1
  have hwinl : alookup st.wrapInfo (st.nextToken + 1) = none := by
    cases hv : alookup st.wrapInfo (st.nextToken + 1) with
    | none => rfl
    | some v =>
      have := hc.wkeys _ (alookup_mem_key _ _ _ hv)
      omega
  have hslookup : alookup st.funcToWrapperSig f = none := by
    rw [hc.stab]
    exact alookup_none_of_not_key _ _ (by rw [mapPair_keys]; exact hfnew)
  constructor
  · refine ⟨?_, ?_, ?_, ?_, ?_, ?_, ?_, hc.tailok, ?_⟩
    · rw [h1]
      show st.prevHandler ++ _ = _
      rw [hc.ptab, tblEF_append]
      rw [hsaved]
      rfl
    · rw [h1]
      show aset st.funcToWrapperSig f (st.nextToken + 1) = _
      rw [aset_of_none _ _ _ hslookup, hc.stab]
      simp
    · intro x hx
      rw [h1]
      show alookup (aset st.wrapInfo (st.nextToken + 1) ⟨f, se, kb⟩) x.w = _
      rcases List.mem_append.mp hx with h2 | h2
      · have hxw : x.w ≠ st.nextToken + 1 := by
          have := hc.wbound x h2
          omega
        rw [alookup_aset_ne _ _ _ _ (Ne.symm hxw)]
        exact hc.winfo x h2
      · rw [List.mem_singleton] at h2
        subst h2
        exact alookup_aset_self _ _ _
    · intro x hx
      rw [h1]
      show x.w < st.nextToken + 2
      rcases List.mem_append.mp hx with h2 | h2
      · have := hc.wbound x h2
        omega
      · rw [List.mem_singleton] at h2
        subst h2
        show st.nextToken + 1 < st.nextToken + 2
        omega
    · intro k hk
      rw [h1] at hk ⊢
      show k < st.nextToken + 2
      have hkeys : akeys (aset st.wrapInfo (st.nextToken + 1) (⟨f, se, kb⟩ : WInfo))
          = akeys st.wrapInfo ++ [st.nextToken + 1] := by
        rw [aset_of_none _ _ _ hwinl]
        simp [akeys]
      rw [hkeys] at hk
      rcases List.mem_append.mp hk with h2 | h2
      · have := hc.wkeys k h2
        omega
      · rw [List.mem_singleton] at h2
        omega
    · simp only [List.map_append, List.map_cons, List.map_nil]
      rw [List.nodup_middle]
      simp only [List.append_nil, List.nodup_cons]
      exact ⟨hfnew, hc.fnodup⟩
    · have hnw : st.nextToken + 1 ∉ cs.map (fun c => c.w) := by
        intro hmem
        rw [List.mem_map] at hmem
        obtain ⟨x, hx, hxw⟩ := hmem
        have := hc.wbound x hx
        omega
      simp only [List.map_append, List.map_cons, List.map_nil]
      rw [List.nodup_middle]
      simp only [List.append_nil, List.nodup_cons]
      exact ⟨hnw, hc.wnodup⟩
    · rw [List.getLast?_concat]
      rw [h1]
      show (fun x => if x = s then Handler.wrap (st.nextToken + 1) else st.sigTable x) s
        = Handler.wrap (st.nextToken + 1)
      simp
  · rw [h1]

theorem filter_ne_of_not_mem (l : List Nat) (a : Nat) (h : a ∉ l) :
    l.filter (fun g => g ≠ a) = l := by
  induction l with
  | nil => rfl
  | cons x rest ih =>
    simp only [List.mem_cons] at h
    push_neg at h
    rw [List.filter_cons]
    have hd0 : x ≠ a := fun hq => h.1 hq.symm
    have hd : decide (x ≠ a) = true := by simpa using hd0
    rw [if_pos hd, ih h.2]

theorem chain_exit_step (beh : Nat → Bool) (st : RState) (s : Nat) (A : List Cell)
    (c : Cell) (t : List Handler)
    (hcore : ChainCore st s (A ++ [c]) t)
    (hreg : c.f ∈ st.registered) (hbeh : beh c.f = false) :
    (runExit beh st c.f).2.1 = [Event.callFunc c.f]
      ∧ (runExit beh st c.f).2.2 = PyRes.ok
      ∧ ChainCore (runExit beh st c.f).1 s A t
      ∧ (runExit beh st c.f).1.sigTable s = topOfExact A t
      ∧ (runExit beh st c.f).1.registered = st.registered.filter (fun g => g ≠ c.f) := by
  have hf := nodup_middle_parts (A.map (fun x => x.f)) c.f ([] : List Nat)
    (by simpa using hcore.fnodup)
  have hcfA : c.f ∉ akeys (tblEF s A t) := by
    rw [tblEF_keys]; exact hf.2.2.1
  have hmc : alookup st.prevHandler c.f = some [(s, linkEF A t)] := by
    rw [hcore.ptab, tblEF_append]
    exact alookup_middle _ _ _ _ hcfA
  have hlastc : (A ++ [c]).getLast? = some c := List.getLast?_concat A
  have htopc : st.sigTable s = Handler.wrap c.w := by
    have h := hcore.top
    rw [hlastc] at h
    exact h
  have hEq : runExit beh st c.f
      = (unregisterFn
          (setSig
            ({ setSig st s Handler.ign with
                registered := st.registered.filter (fun g => g ≠ c.f) })
            s (Handler.wrap c.w)) c.f,
         [Event.callFunc c.f], PyRes.ok) := by
    unfold runExit
    rw [if_pos hreg, hmc]
    dsimp only
    rw [if_neg (by rw [hbeh]; exact Bool.false_ne_true)]
    simp only [List.foldl_cons, List.foldl_nil, List.nil_append]
    rw [htopc]
    rfl
  have hcoreR : ChainCore
      (setSig
        ({ setSig st s Handler.ign with
            registered := st.registered.filter (fun g => g ≠ c.f) })
        s (Handler.wrap c.w)) s (A ++ c :: []) t := by
    refine ⟨hcore.ptab, hcore.stab, hcore.winfo, hcore.wbound, hcore.wkeys,
      hcore.fnodup, hcore.wnodup, hcore.tailok, ?_⟩
    rw [show ((A ++ c :: [] : List Cell)).getLast? = some c from hlastc]
    show (setSig _ s (Handler.wrap c.w)).sigTable s = Handler.wrap c.w
    simp [setSig]
  obtain ⟨hcu, hsig⟩ := chain_unregister_core _ s A c [] t hcoreR
  refine ⟨by rw [hEq], by rw [hEq], ?_, ?_, ?_⟩
  · rw [hEq]
    show ChainCore (unregisterFn _ c.f) s A t
    simpa using hcu
  · rw [hEq]
    show (unregisterFn _ c.f).sigTable s = topOfExact A t
    simpa using hsig
  · rw [hEq]
    show (unregisterFn _ c.f).registered = st.registered.filter (fun g => g ≠ c.f)
    rw [unregisterFn_registered]
    show ((st.registered.filter (fun g => g ≠ c.f)).filter (fun g => g ≠ c.f)) = _
    rw [List.filter_filter]
    simp

theorem firstRes_append (cs l : List Cell) (s : Nat) (h : cs ≠ []) :
    firstRes (cs ++ l) s = firstRes cs s := by
  cases cs with
  | nil => cases h rfl
  | cons a r => rfl

theorem firstRes_cases (cs : List Cell) (s : Nat) (h : cs ≠ []) :
    firstRes cs s = PyRes.kbInt ∨ ∃ m, firstRes cs s = PyRes.exited m := by
  cases cs with
  | nil => cases h rfl
  | cons a r =>
    unfold firstRes
    dsimp only
    split
    · left; rfl
    · right; exact ⟨if a.se then 0 else s, rfl⟩

theorem reverse_snoc_filter (X : List Nat) (a : Nat) (hX : a ∉ X) :
    ((X ++ [a]).reverse).filter (fun g => g ≠ a) = X.reverse := by
  rw [List.reverse_append]
  simp only [List.reverse_cons, List.reverse_nil, List.nil_append, List.singleton_append]
  rw [List.filter_cons]
  rw [if_neg (by simp)]
  exact filter_ne_of_not_mem _ _ (by simpa using hX)

theorem chain_runSig (beh : Nat → Bool) (s : Nat) (t : List Handler) :
    ∀ (fuel : Nat) (A : List Cell) (c : Cell) (st : RState),
      ChainCore st s (A ++ [c]) t →
      st.registered = ((A ++ [c]).map (fun x => x.f)).reverse →
      (∀ x ∈ A ++ [c], beh x.f = false) →
      A.length + 1 ≤ fuel →
      (runSig beh fuel st c.w s).2.1
          = Event.callFunc c.f
              :: (A.reverse.map (fun x => Event.callFunc x.f) ++ tailTrace t s)
        ∧ (runSig beh fuel st c.w s).2.2 = firstRes (A ++ [c]) s := by
  intro fuel
  induction fuel with
  | zero => intro A c st _ _ _ hle; omega
  | succ fuel ih =>
    intro A c st hcore hrtab hbeh hle
    have hcmem : c ∈ A ++ [c] :=
      List.mem_append.mpr (Or.inr (List.mem_singleton.mpr rfl))
    have hwin : alookup st.wrapInfo c.w = some ⟨c.f, c.se, c.kb⟩ := hcore.winfo c hcmem
    have hregc : c.f ∈ st.registered := by
      rw [hrtab, List.mem_reverse]
      exact List.mem_map_of_mem _ hcmem
    obtain ⟨hT, hR, hcore1, hsig1, hreg1⟩ :=
      chain_exit_step beh st s A c t hcore hregc (hbeh c hcmem)
    have hfsplit := nodup_middle_parts (A.map (fun x => x.f)) c.f ([] : List Nat)
      (by simpa using hcore.fnodup)
    have hreg1v : (runExit beh st c.f).1.registered
        = (A.map (fun x => x.f)).reverse := by
      rw [hreg1, hrtab]
      rw [show ((A ++ [c]).map (fun x => x.f)) = A.map (fun x => x.f) ++ [c.f] by simp]
      exact reverse_snoc_filter _ _ hfsplit.2.2.1
    unfold runSig
    rw [hwin]
    dsimp only
    rw [hR]
    dsimp only
    rw [hsig1]
    rcases List.eq_nil_or_concat A with hA | ⟨A2, d, hA⟩
    · subst hA
      rcases hcore.tailok with ht | ⟨n, ht⟩ <;> subst ht
      · rw [show topOfExact ([] : List Cell) ([] : List Handler) = Handler.dfl from rfl]
        dsimp only
        constructor
        · split <;> (rw [hT]; rfl)
        · split
          case isTrue hkb => simp [firstRes, hkb]
          case isFalse hkb => simp [firstRes, hkb]
      · rw [show topOfExact ([] : List Cell) [Handler.foreign n] = Handler.foreign n from rfl]
        dsimp only
        constructor
        · split <;> (rw [hT]; rfl)
        · split
          case isTrue hkb => simp [firstRes, hkb]
          case isFalse hkb => simp [firstRes, hkb]
    · rw [List.concat_eq_append] at hA
      subst hA
      have htopA : topOfExact (A2 ++ [d]) t = Handler.wrap d.w := by
        unfold topOfExact
        rw [List.getLast?_concat]
      rw [htopA]
      dsimp only
      have hbeh2 : ∀ x ∈ A2 ++ [d], beh x.f = false :=
        fun x hx => hbeh x (List.mem_append.mpr (Or.inl hx))
      have hle2 : A2.length + 1 ≤ fuel := by
        have hlen : (A2 ++ [d]).length = A2.length + 1 := by simp
        rw [hlen] at hle
        omega
      obtain ⟨hT2, hR2⟩ := ih A2 d (runExit beh st c.f).1 hcore1 hreg1v hbeh2 hle2
      have hne2 : (A2 ++ [d] : List Cell) ≠ [] := by simp
      rcases firstRes_cases (A2 ++ [d]) s hne2 with hcase | ⟨m, hcase⟩
      · rw [hR2, hcase]
        dsimp only
        constructor
        · rw [hT, hT2]
          simp [List.reverse_append]
        · rw [firstRes_append _ _ _ hne2, hcase]
      · rw [hR2, hcase]
        dsimp only
        constructor
        · rw [hT, hT2]
          simp [List.reverse_append]
        · rw [firstRes_append _ _ _ hne2, hcase]

theorem chain_deliver (beh : Nat → Bool) (s : Nat) (t : List Handler)
    (A : List Cell) (c : Cell) (st : RState) (fuel : Nat)
    (hcore : ChainCore st s (A ++ [c]) t)
    (hrtab : st.registered = ((A ++ [c]).map (fun x => x.f)).reverse)
    (hbeh : ∀ x ∈ A ++ [c], beh x.f = false)
    (hle : A.length + 1 ≤ fuel) :
    (deliverSig beh fuel st s).2.1
        = Event.callFunc c.f
            :: (A.reverse.map (fun x => Event.callFunc x.f) ++ tailTrace t s)
      ∧ (deliverSig beh fuel st s).2.2 = firstRes (A ++ [c]) s := by
  have htop : st.sigTable s = Handler.wrap c.w := by
    have h := hcore.top
    rw [List.getLast?_concat A] at h
    exact h
  unfold deliverSig
  rw [htop]
  exact chain_runSig beh s t fuel A c st hcore hrtab hbeh hle

theorem regList_chain_aux (s : Nat) (t : List Handler) :
    ∀ (qs : List (Nat × Bool × Bool)) (st : RState) (cs : List Cell),
      ChainCore st s cs t →
      st.registered = (cs.map (fun c => c.f)).reverse →
      ((cs.map (fun c => c.f)) ++ qs.map (fun q => q.1)).Nodup →
      ∃ cs2 : List Cell,
        ChainCore (regList s st qs) s (cs ++ cs2) t
          ∧ (regList s st qs).registered = ((cs ++ cs2).map (fun c => c.f)).reverse
          ∧ cs2.map (fun c => (c.f, c.se, c.kb)) = qs := by
  intro qs
  induction qs with
  | nil =>
    intro st cs hc hr _
    exact ⟨[], by simpa using hc, by simpa using hr, rfl⟩
  | cons q rest ih =>
    intro st cs hc hr hnd
    have hnotin : q.1 ∉ cs.map (fun c => c.f) :=
      (nodup_middle_parts (cs.map (fun c => c.f)) q.1 (rest.map (fun q => q.1))
        (by simpa using hnd)).2.2.1
    have hregn : q.1 ∉ st.registered := by
      rw [hr, List.mem_reverse]
      exact hnotin
    obtain ⟨hc2, hr2⟩ := chain_register st s cs t q.1 q.2.1 q.2.2 hc hregn hnotin
    have hr2v : (registerImpl st q.1 [s] q.2.1 q.2.2).1.registered
        = ((cs ++ [(⟨q.1, st.nextToken + 1, q.2.1, q.2.2⟩ : Cell)]).map (fun c => c.f)).reverse := by
      rw [hr2, hr]
      simp [List.reverse_append]
    have hnd2 : (((cs ++ [(⟨q.1, st.nextToken + 1, q.2.1, q.2.2⟩ : Cell)]).map (fun c => c.f))
        ++ rest.map (fun q => q.1)).Nodup := by
      simp only [List.map_append, List.map_cons, List.map_nil]
      rw [← List.append_cons]
      simpa using hnd
    obtain ⟨cs2, ha, hb, hcq⟩ := ih (registerImpl st q.1 [s] q.2.1 q.2.2).1
      (cs ++ [(⟨q.1, st.nextToken + 1, q.2.1, q.2.2⟩ : Cell)]) hc2 hr2v hnd2
    refine ⟨(⟨q.1, st.nextToken + 1, q.2.1, q.2.2⟩ : Cell) :: cs2, ?_, ?_, ?_⟩
    · rw [List.append_cons]
      exact ha
    · rw [List.append_cons]
      exact hb
    · simp only [List.map_cons]
      rw [hcq]

theorem regList_chain (S0 : Nat → Handler) (s : Nat)
    (hS0 : ∀ w2, S0 s ≠ Handler.wrap w2)
    (qs : List (Nat × Bool × Bool)) (hnd : (qs.map (fun q => q.1)).Nodup) :
    ∃ cs : List Cell,
      ChainCore (regList s (cleanState S0) qs) s cs (savedOf (S0 s))
        ∧ (regList s (cleanState S0) qs).registered = (cs.map (fun c => c.f)).reverse
        ∧ cs.map (fun c => (c.f, c.se, c.kb)) = qs := by
  obtain ⟨cs2, ha, hb, hc2⟩ := regList_chain_aux s (savedOf (S0 s)) qs (cleanState S0) []
    (chainCore_clean S0 s hS0) rfl (by simpa using hnd)
  exact ⟨cs2, by simpa using ha, by simpa using hb, hc2⟩

theorem obs_of_chain (st : RState) (s : Nat) (t : List Handler) :
    ∀ (fuel : Nat) (A B cs : List Cell), ChainCore st s cs t → cs = A ++ B →
      A.length ≤ fuel →
      obsChain st s fuel (topOfExact A t)
        = (A.reverse.map (fun c => (c.f, c.se, c.kb)), headOr t) := by
  intro fuel
  induction fuel with
  | zero =>
    intro A B cs hc hAB hle
    have hA : A = [] := List.length_eq_zero.mp (Nat.le_zero.mp hle)
    subst hA
    rfl
  | succ fuel ih =>
    intro A B cs hc hAB hle
    subst hAB
    rcases List.eq_nil_or_concat A with hA | ⟨A2, d, hA⟩
    · subst hA
      rcases hc.tailok with ht | ⟨n, ht⟩ <;> subst ht <;> rfl
    · rw [List.concat_eq_append] at hA
      subst hA
      have hcs : (A2 ++ [d]) ++ B = A2 ++ d :: B := by rw [← List.append_cons]
      have hwin : alookup st.wrapInfo d.w = some ⟨d.f, d.se, d.kb⟩ :=
        hc.winfo d (by simp)
      have hnodp := nodup_middle_parts (A2.map (fun c => c.f)) d.f (B.map (fun c => c.f))
        (by simpa using hc.fnodup)
      have hdkeys : d.f ∉ akeys (tblEF s A2 t) := by
        rw [tblEF_keys]
        exact hnodp.2.2.1
      have hentry : alookup st.prevHandler d.f = some [(s, linkEF A2 t)] := by
        rw [hc.ptab, hcs, tblEF_append]
        exact alookup_middle _ _ _ _ hdkeys
      have htopd : topOfExact (A2 ++ [d]) t = Handler.wrap d.w := by
        unfold topOfExact
        rw [List.getLast?_concat]
      rw [htopd]
      unfold obsChain
      dsimp only
      rw [hwin]
      dsimp only
      rw [hentry]
      have hnxt : (match alookup [(s, linkEF A2 t)] s with
          | some (h2 :: _) => h2
          | _ => Handler.dfl) = topOfExact A2 t := by
        rw [show alookup [(s, linkEF A2 t)] s = some (linkEF A2 t) by simp [alookup]]
        unfold linkEF topOfExact
        cases hL : A2.getLast? with
        | some x => rfl
        | none => rcases hc.tailok with ht | ⟨n, ht⟩ <;> subst ht <;> rfl
      simp only [Option.getD_some]
      rw [hnxt]
      rw [ih A2 (d :: B) (A2 ++ d :: B) (by rw [← hcs]; exact hc) rfl
        (by
          have : (A2 ++ [d]).length = A2.length + 1 := by simp
          rw [this] at hle
          omega)]
      simp [List.reverse_append]

theorem map_split {α β : Type} (F : α → β) :
    ∀ (l : List α) (y1 : List β) (b : β) (y2 : List β),
      l.map F = y1 ++ b :: y2 →
      ∃ x1 a x2, l = x1 ++ a :: x2 ∧ x1.map F = y1 ∧ F a = b ∧ x2.map F = y2 := by
  intro l
  induction l with
  | nil =>
    intro y1 b y2 h
    exfalso
    cases y1 <;> simp at h
  | cons x rest ih =>
    intro y1 b y2 h
    cases y1 with
    | nil =>
      simp only [List.map_cons, List.nil_append] at h
      injection h with h1 h2
      exact ⟨[], x, rest, rfl, rfl, h1, h2⟩
    | cons y ys =>
      simp only [List.map_cons, List.cons_append] at h
      injection h with h1 h2
      obtain ⟨x1, a, x2, hl, hm1, hab, hm2⟩ := ih ys b y2 h2
      refine ⟨x :: x1, a, x2, by rw [hl]; rfl, ?_, hab, hm2⟩
      simp [hm1, h1]

theorem reverse_filter_middle (X : List Nat) (a : Nat) (Y : List Nat)
    (hX : a ∉ X) (hY : a ∉ Y) :
    ((X ++ a :: Y).reverse).filter (fun g => g ≠ a) = (X ++ Y).reverse := by
  rw [List.reverse_append, List.reverse_cons, List.filter_append, List.filter_append]
  rw [show List.filter (fun g => decide (g ≠ a)) [a] = [] from by simp]
  rw [filter_ne_of_not_mem _ _ (by simpa using hY),
    filter_ne_of_not_mem _ _ (by simpa using hX)]
  rw [List.reverse_append]
  simp

theorem obs_nonwrap (st : RState) (s : Nat) (fuel : Nat) (h : Handler)
    (hnw : ∀ w2, h ≠ Handler.wrap w2) :
    obsChain st s fuel h = ([], h) := by
  cases fuel with
  | zero => rfl
  | succ fuel =>
    cases h with
    | dfl => rfl
    | ign => rfl
    | defaultInt => rfl
    | foreign n => rfl
    | wrap w2 => exact absurd rfl (hnw w2)

/-! ## Exit status of a chained delivery (claim C3) -/

/-- C3 counterexample: two callbacks chained on signal 15.  The handler that
receives the signal is the most recently registered callback's wrapper
(token 3), and that callback was registered with `successful_exit = true`,
yet the process exits with status 15, not 0: the exit status is decided by
the earliest-registered callback of the chain, not by the callback whose
handler received the signal, so it is not the same regardless of how many
callbacks are chained. -/
theorem C3_counterexample :
    ((regList 15 (cleanState (fun _ => Handler.dfl))
          [(0, false, false), (1, true, false)]).sigTable 15 = Handler.wrap 3
        ∧ alookup (regList 15 (cleanState (fun _ => Handler.dfl))
            [(0, false, false), (1, true, false)]).wrapInfo 3
          = some ⟨1, true, false⟩)
      ∧ (deliverSig (fun _ => false) 2
            (regList 15 (cleanState (fun _ => Handler.dfl))
              [(0, false, false), (1, true, false)]) 15).2.2
        = PyRes.exited 15
      ∧ PyRes.exited 15 ≠ PyRes.exited 0 := by
  decide

/-- C3 (amended): when a bound signal `s` is delivered to a chain of
registered callbacks, the exit status is decided by the earliest-registered
still-active callback `q0` of the chain — the innermost wrapper, whose
`sys.exit` / `KeyboardInterrupt` is the one that escapes after the
forwarding calls return: `KeyboardInterrupt` if `q0` asked for it and `s`
is SIGINT, otherwise exit status 0 if `q0` was registered with
`successful_exit` and the numeric value of `s` if not — independently of
the flags of the callback whose handler actually received the signal. -/
theorem C3_exit_status_from_earliest (S0 : Nat → Handler) (s : Nat)
    (q0 : Nat × Bool × Bool) (rest : List (Nat × Bool × Bool))
    (beh : Nat → Bool) (fuel : Nat)
    (hS0 : ∀ w2, S0 s ≠ Handler.wrap w2)
    (hnd : ((q0 :: rest).map (fun q => q.1)).Nodup)
    (hbeh : ∀ q ∈ q0 :: rest, beh q.1 = false)
    (hfuel : (q0 :: rest).length ≤ fuel) :
    (deliverSig beh fuel (regList s (cleanState S0) (q0 :: rest)) s).2.2
      = if q0.2.2 && (s == SIGINT) then PyRes.kbInt
        else PyRes.exited (if q0.2.1 then 0 else s) := by
  obtain ⟨cs, hcore, hrtab, hmap⟩ := regList_chain S0 s hS0 (q0 :: rest) hnd
  cases cs with
  | nil => simp at hmap
  | cons c0 cs2 =>
    rw [List.map_cons] at hmap
    injection hmap with hq0 hrest
    rcases List.eq_nil_or_concat (c0 :: cs2) with hnil | ⟨A, c, hAc⟩
    · exact absurd hnil (List.cons_ne_nil c0 cs2)
    · rw [List.concat_eq_append] at hAc
      have hbeh2 : ∀ x ∈ A ++ [c], beh x.f = false := by
        intro x hx
        have hx2 : x ∈ c0 :: cs2 := by rw [hAc]; exact hx
        have hm : (x.f, x.se, x.kb) ∈ q0 :: rest := by
          have hmm := List.mem_map_of_mem (fun y : Cell => (y.f, y.se, y.kb)) hx2
          rw [List.map_cons, hq0, hrest] at hmm
          exact hmm
        exact hbeh _ hm
      have hlen : A.length + 1 ≤ fuel := by
        have h1 : (c0 :: cs2).length = (A ++ [c]).length := by rw [hAc]
        have h2 : cs2.length = rest.length := by
          have h3 := congrArg List.length hrest
          simpa using h3
        simp [List.length_append] at h1
        simp only [List.length_cons] at hfuel
        omega
      rw [hAc] at hcore hrtab
      have hres := (chain_deliver beh s (savedOf (S0 s)) A c _ fuel
        hcore hrtab hbeh2 hlen).2
      rw [hres, ← hAc]
      have h1 : q0.2.1 = c0.se := by rw [← hq0]
      have h2 : q0.2.2 = c0.kb := by rw [← hq0]
      rw [h1, h2]
      rfl

/-- The amended C3 theorem at a concrete chain: callbacks 0 (plain) and 1
(`successful_exit = true`) share signal 15; delivery exits with status 15,
as decided by the earliest-registered callback 0. -/
theorem C3_witness :
    (deliverSig (fun _ => false) 2
        (regList 15 (cleanState (fun _ => Handler.dfl))
          [(0, false, false), (1, true, false)]) 15).2.2
      = PyRes.exited 15 := by
  have h := C3_exit_status_from_earliest (fun _ => Handler.dfl) 15
      (0, false, false) [(1, true, false)] (fun _ => false) 2
      (fun w2 h => Handler.noConfusion h) (by decide) (by decide) (by decide)
  simpa using h

/-! ## Callback failure during the signal wrapper (claim C6) -/

/-- C6: the exit wrapper has no `try/finally`, so when the user callback
raises, the dispositions temporarily set to `SIG_IGN` for the duration of
the callback are NOT restored.  Callback 0 is registered for signal 15 over
the default disposition and raises when invoked.  Delivering signal 15:
the exception propagates (not swallowed) and at-most-once holds (the
callback was removed from the active set before being invoked), but the
disposition for 15 is left at `SIG_IGN` and the registration tables still
hold the callback's wrapper and saved-previous-handler entries because
`unregister` was never reached. -/
theorem C6_raise_skips_restoration :
    (deliverSig (fun _ => true) 2
        (registerImpl (cleanState (fun _ => Handler.dfl)) 0 [15] false false).1
        15).2.2 = PyRes.exn
      ∧ (deliverSig (fun _ => true) 2
          (registerImpl (cleanState (fun _ => Handler.dfl)) 0 [15] false false).1
          15).1.sigTable 15 = Handler.ign
      ∧ alookup (deliverSig (fun _ => true) 2
          (registerImpl (cleanState (fun _ => Handler.dfl)) 0 [15] false false).1
          15).1.prevHandler 0 = some [(15, [])]
      ∧ (deliverSig (fun _ => true) 2
          (registerImpl (cleanState (fun _ => Handler.dfl)) 0 [15] false false).1
          15).1.registered = [] := by
  decide

/-! ## Reverse installation order (claim C4) -/

/-- C4: on delivery of a signal shared by several registered callbacks, the
handlers fire in reverse installation order — most recently registered
first, each forwarding to the handler installed before it, down through
earlier registrations to any foreign handler that was installed before the
chain — and unregistering any one of the shared callbacks does not prevent
the others from firing in that same relative order. -/
theorem C4_reverse_installation_order (S0 : Nat → Handler) (s : Nat)
    (qs : List (Nat × Bool × Bool)) (beh : Nat → Bool) (fuel : Nat)
    (hS0 : ∀ w2, S0 s ≠ Handler.wrap w2)
    (hnd : (qs.map (fun q => q.1)).Nodup)
    (hbeh : ∀ q ∈ qs, beh q.1 = false)
    (hfuel : qs.length ≤ fuel) :
    (qs ≠ [] →
        (deliverSig beh fuel (regList s (cleanState S0) qs) s).2.1
          = qs.reverse.map (fun q => Event.callFunc q.1)
              ++ tailTrace (savedOf (S0 s)) s)
      ∧ ∀ qA q qB, qs = qA ++ q :: qB →
          (deliverSig beh fuel
              (unregisterFn (regList s (cleanState S0) qs) q.1) s).2.1
            = (qA ++ qB).reverse.map (fun q2 => Event.callFunc q2.1)
                ++ tailTrace (savedOf (S0 s)) s := by
  obtain ⟨cs, hcore, hrtab, hmap⟩ := regList_chain S0 s hS0 qs hnd
  constructor
  · intro hne
    have hcsne : cs ≠ [] := by
      intro h
      rw [h] at hmap
      exact hne hmap.symm
    rcases List.eq_nil_or_concat cs with h | ⟨A, c, hAc⟩
    · exact absurd h hcsne
    · rw [List.concat_eq_append] at hAc
      subst hAc
      have hbeh2 : ∀ x ∈ A ++ [c], beh x.f = false := by
        intro x hx
        have hm : (x.f, x.se, x.kb) ∈ qs := by
          rw [← hmap]
          exact List.mem_map_of_mem (fun y : Cell => (y.f, y.se, y.kb)) hx
        exact hbeh _ hm
      have hlen : A.length + 1 ≤ fuel := by
        have h1 := congrArg List.length hmap
        simp [List.length_append] at h1
        omega
      have htr := (chain_deliver beh s (savedOf (S0 s)) A c _ fuel
        hcore hrtab hbeh2 hlen).1
      rw [htr, ← hmap]
      simp [List.map_reverse, List.map_map, List.reverse_append, Function.comp]
  · intro qA q qB hsplit
    subst hsplit
    obtain ⟨csA, ci, csB, hcs, hmA, hFi, hmB⟩ := map_split _ cs qA q qB hmap
    subst hcs
    have hqf : q.1 = ci.f := by rw [← hFi]
    rw [hqf]
    obtain ⟨hcore2, hsig2⟩ := chain_unregister_core _ s csA ci csB _ hcore
    have hfp := nodup_middle_parts (csA.map (fun x => x.f)) ci.f (csB.map (fun x => x.f))
      (by simpa using hcore.fnodup)
    have hreg2 : (unregisterFn (regList s (cleanState S0) (qA ++ q :: qB))
          ci.f).registered
        = ((csA ++ csB).map (fun x => x.f)).reverse := by
      rw [unregisterFn_registered, hrtab]
      have hsplitmap : (csA ++ ci :: csB).map (fun x => x.f)
          = csA.map (fun x => x.f) ++ ci.f :: csB.map (fun x => x.f) := by
        simp
      rw [hsplitmap]
      rw [reverse_filter_middle _ _ _ hfp.2.2.1 hfp.2.2.2.1]
      simp
    have hbeh3 : ∀ x ∈ csA ++ csB, beh x.f = false := by
      intro x hx
      have hx2 : x ∈ csA ++ ci :: csB := by
        rcases List.mem_append.mp hx with h | h
        · exact List.mem_append.mpr (Or.inl h)
        · exact List.mem_append.mpr (Or.inr (List.mem_cons_of_mem ci h))
      have hm : (x.f, x.se, x.kb) ∈ qA ++ q :: qB := by
        rw [← hmap]
        exact List.mem_map_of_mem (fun y : Cell => (y.f, y.se, y.kb)) hx2
      exact hbeh _ hm
    have hlenAB : (csA ++ csB).length = (qA ++ qB).length := by
      have h1 := congrArg List.length hmA
      have h2 := congrArg List.length hmB
      simp only [List.length_map] at h1 h2
      simp [List.length_append, h1, h2]
    rcases List.eq_nil_or_concat (csA ++ csB) with hemp | ⟨A2, c2, hA2⟩
    · obtain ⟨hca, hcb⟩ := List.append_eq_nil.mp hemp
      subst hca
      subst hcb
      have hqa : qA = [] := by rw [← hmA]; rfl
      have hqb : qB = [] := by rw [← hmB]; rfl
      subst hqa
      subst hqb
      have hsig3 : (unregisterFn (regList s (cleanState S0) [q]) ci.f).sigTable s
          = headOr (savedOf (S0 s)) := by simpa using hsig2
      rcases hcore2.tailok with ht | ⟨n, ht⟩ <;>
        simp [deliverSig, hsig3, ht, headOr, tailTrace]
    · rw [List.concat_eq_append] at hA2
      rw [hA2] at hcore2 hreg2 hbeh3 hlenAB
      have hlen2 : A2.length + 1 ≤ fuel := by
        have h1 : (qA ++ q :: qB).length ≤ fuel := hfuel
        simp [List.length_append] at h1 hlenAB
        omega
      have htr := (chain_deliver beh s (savedOf (S0 s)) A2 c2 _ fuel
        hcore2 hreg2 hbeh3 hlen2).1
      rw [htr]
      have hm2 : (A2 ++ [c2]).map (fun y : Cell => (y.f, y.se, y.kb)) = qA ++ qB := by
        rw [← hA2, List.map_append, hmA, hmB]
      rw [← hm2]
      simp [List.map_reverse, List.map_map, List.reverse_append, Function.comp]

/-- C4 at a concrete instance: callbacks 0, 1, 2 share signal 15 over
the default disposition; after unregistering the middle callback 1,
delivery fires callback 2 first and then callback 0. -/
theorem C4_witness :
    (deliverSig (fun _ => false) 3
        (unregisterFn (regList 15 (cleanState (fun _ => Handler.dfl))
            [(0, false, false), (1, false, false), (2, false, false)]) 1) 15).2.1
      = [Event.callFunc 2, Event.callFunc 0] := by
  have h := (C4_reverse_installation_order (fun _ => Handler.dfl) 15
      [(0, false, false), (1, false, false), (2, false, false)] (fun _ => false) 3
      (fun w2 h => Handler.noConfusion h) (by decide) (by decide) (by decide)).2
      [(0, false, false)] (1, false, false) [(2, false, false)] rfl
  simpa using h

/-! ## Unregistering versus never having registered (claim C2) -/

/-- C2 counterexample: a single callback registered for signal 15 while the
disposition was the non-callable ignore sentinel.  `SIG_IGN` is not saved at
registration, so unregistering installs `SIG_DFL`; had the callback never
been registered the disposition would still be `SIG_IGN`.  The OS-installed
handler is therefore not as it would be had the removed callback never been
registered. -/
theorem C2_counterexample :
    (unregisterFn (regList 15 (cleanState (fun _ => Handler.ign))
          [(0, false, false)]) 0).sigTable 15 = Handler.dfl
      ∧ (regList 15 (cleanState (fun _ => Handler.ign)) []).sigTable 15
          = Handler.ign
      ∧ Handler.dfl ≠ Handler.ign := by
  decide

/-- C2 (amended): unregistering any one of the callbacks registered for a
shared signal — earliest, middle, or most recent — leaves the observable
chain (the sequence of remaining callbacks with their flags, read from the
installed disposition through the saved previous-handler links, and the
terminal handler) equal to that of the world in which the removed callback
was never registered, provided at least one callback remains for the signal
or the pre-registration disposition is faithfully rebuilt from its saved
form (which excludes `SIG_IGN` and the default interrupt handler: removing
the last callback then installs `SIG_DFL` instead). -/
theorem C2_unregister_equiv_never_registered (S0 : Nat → Handler) (s : Nat)
    (qA : List (Nat × Bool × Bool)) (q : Nat × Bool × Bool)
    (qB : List (Nat × Bool × Bool)) (fuel : Nat)
    (hS0 : ∀ w2, S0 s ≠ Handler.wrap w2)
    (hnd : ((qA ++ q :: qB).map (fun q2 => q2.1)).Nodup)
    (hfuel : (qA ++ qB).length ≤ fuel)
    (hside : qA ++ qB ≠ [] ∨ headOr (savedOf (S0 s)) = S0 s) :
    obsChain (unregisterFn (regList s (cleanState S0) (qA ++ q :: qB)) q.1) s fuel
        ((unregisterFn (regList s (cleanState S0) (qA ++ q :: qB)) q.1).sigTable s)
      = obsChain (regList s (cleanState S0) (qA ++ qB)) s fuel
          ((regList s (cleanState S0) (qA ++ qB)).sigTable s) := by
  obtain ⟨cs, hcore, hrtab, hmap⟩ := regList_chain S0 s hS0 (qA ++ q :: qB) hnd
  obtain ⟨csA, ci, csB, hcs, hmA, hFi, hmB⟩ := map_split _ cs qA q qB hmap
  subst hcs
  have hqf : q.1 = ci.f := by rw [← hFi]
  rw [hqf]
  obtain ⟨hcore2, hsig2⟩ := chain_unregister_core _ s csA ci csB _ hcore
  have hlenAB : (csA ++ csB).length = (qA ++ qB).length := by
    have h1 := congrArg List.length hmA
    have h2 := congrArg List.length hmB
    simp only [List.length_map] at h1 h2
    simp [List.length_append, h1, h2]
  have hobsL := obs_of_chain
    (unregisterFn (regList s (cleanState S0) (qA ++ q :: qB)) ci.f)
    s (savedOf (S0 s)) fuel (csA ++ csB) [] (csA ++ csB) hcore2 (by simp)
    (by omega)
  have hnd2 : ((qA ++ qB).map (fun q2 => q2.1)).Nodup := by
    have hsub : List.Sublist (qA ++ qB) (qA ++ q :: qB) :=
      List.Sublist.append_left ((List.Sublist.refl qB).cons q) qA
    exact List.Nodup.sublist (hsub.map (fun q2 => q2.1)) hnd
  obtain ⟨cs2, hcore3, hrtab3, hmap3⟩ := regList_chain S0 s hS0 (qA ++ qB) hnd2
  rw [hsig2, hobsL]
  by_cases hqe : qA ++ qB = []
  · have hS : headOr (savedOf (S0 s)) = S0 s := by
      rcases hside with h | h
      · exact absurd hqe h
      · exact h
    obtain ⟨hqa, hqb⟩ := List.append_eq_nil.mp hqe
    subst hqa
    subst hqb
    have hca : csA = [] := List.map_eq_nil_iff.mp hmA
    have hcb : csB = [] := List.map_eq_nil_iff.mp hmB
    subst hca
    subst hcb
    have hobs := obs_nonwrap (cleanState S0) s fuel ((cleanState S0).sigTable s) hS0
    have hclean : regList s (cleanState S0) (([] : List (Nat × Bool × Bool)) ++ [])
        = cleanState S0 := rfl
    rw [hclean, hobs]
    simp [cleanState, hS]
  · have hcs2ne : cs2 ≠ [] := by
      intro h
      rw [h] at hmap3
      exact hqe hmap3.symm
    rcases List.eq_nil_or_concat cs2 with h | ⟨A2, c2, hA2⟩
    · exact absurd h hcs2ne
    · rw [List.concat_eq_append] at hA2
      have htop := hcore3.top
      rw [hA2] at htop
      rw [List.getLast?_concat] at htop
      have ht2 : topOfExact cs2 (savedOf (S0 s)) = Handler.wrap c2.w := by
        rw [hA2]
        unfold topOfExact
        rw [List.getLast?_concat]
      have hlen2 : cs2.length ≤ fuel := by
        have h3 := congrArg List.length hmap3
        simp only [List.length_map] at h3
        omega
      have hobsR := obs_of_chain (regList s (cleanState S0) (qA ++ qB)) s
        (savedOf (S0 s)) fuel cs2 [] cs2 hcore3 (by simp) hlen2
      rw [htop, ← ht2, hobsR]
      have hmeq : (csA ++ csB).reverse.map (fun c => (c.f, c.se, c.kb))
          = cs2.reverse.map (fun c => (c.f, c.se, c.kb)) := by
        rw [List.map_reverse, List.map_reverse]
        rw [List.map_append, hmA, hmB, hmap3]
      rw [hmeq]

/-- The amended C2 theorem at a concrete chain: callbacks 0, 1, 2 share
signal 15 over the default disposition; after unregistering the middle
callback 1, the observable chain equals the one obtained by registering
only callbacks 0 and 2. -/
theorem C2_witness :
    obsChain (unregisterFn (regList 15 (cleanState (fun _ => Handler.dfl))
          [(0, false, false), (1, false, false), (2, false, false)]) 1) 15 2
        ((unregisterFn (regList 15 (cleanState (fun _ => Handler.dfl))
            [(0, false, false), (1, false, false), (2, false, false)]) 1).sigTable 15)
      = obsChain (regList 15 (cleanState (fun _ => Handler.dfl))
          [(0, false, false), (2, false, false)]) 15 2
          ((regList 15 (cleanState (fun _ => Handler.dfl))
              [(0, false, false), (2, false, false)]).sigTable 15) := by
  have h := C2_unregister_equiv_never_registered (fun _ => Handler.dfl) 15
      [(0, false, false)] (1, false, false) [(2, false, false)] 2
      (fun w2 h => Handler.noConfusion h) (by decide) (by decide)
      (Or.inl (by decide))
  simpa using h

end Pyterminate
